import Mathlib

/-!
Verification of the JSON parser of this repository: the lexer
(`json-parser/src/jlexer.rs`) and the grammar-validating partial parser plus
tree builder (`ccjparse/src/jparser.rs`).

Modelling conventions:
* the source text is a `List Char`; positions are character indices (the Rust
  code uses `char_indices`, whose byte offsets coincide with character indices
  on the ASCII inputs considered here);
* Rust `isize` is modelled as `Int` together with the 64-bit range check that
  `str::parse::<isize>` performs; Rust `f64` literals produced by
  `str::parse::<f64>` on digit-and-dot slices are modelled by their exact
  decimal value in `ℚ`;
* a Rust iterator returning `None` ends the stream: no caller in this code
  base calls `next` again after a `None`, so a `none` result is terminal;
* Rust `panic!` / `.unwrap()` on `None` is modelled by explicit `panicked`
  outcomes, kept distinct from the error results of the public API.
-/

namespace CCJparse

/-- All possible tokens provided by the JLexer (`jlexer.rs`, enum
`JLexerToken`).  String payloads are `List Char`; the float payload is the
exact rational value of the lexed decimal slice. -/
inductive JLexerToken where
  | Whitespace
  | ObjectBegin
  | ObjectEnd
  | ArrayBegin
  | ArrayEnd
  | NameSeparator
  | ValueSeparator
  | StringToken
  | TrueToken
  | FalseToken
  | NullToken
  | StringContent (s : List Char)
  | NumberInteger (i : Int)
  | NumberFloat (q : ℚ)
  | UnknownToken (s : List Char)
deriving DecidableEq, Repr

/-- Port of `JLexerToken::is_string_content`. -/
def JLexerToken.isStringContent : JLexerToken → Bool
  | .StringContent _ => true
  | _ => false

/-- Whitespace characters (`whitespace_pat!` in `jlexer.rs`). -/
def isWhitespaceChar (c : Char) : Bool :=
  c == ' ' || c == '\n' || c == '\r' || c == '\t'

/-- Port of `is_number` from `jlexer.rs`: digits and the dot. -/
def isNumber (c : Char) : Bool :=
  c.isDigit || c == '.'

/-- Port of `is_structural` from `jlexer.rs`. -/
def isStructural (c : Char) : Bool :=
  isWhitespaceChar c || c == '{' || c == '[' || c == ']' || c == '}' ||
    c == ':' || c == ',' || c == '"'

/-- Character at an absolute index, mirroring peeking the `CharIndices`
iterator positioned there. -/
def charAt (src : List Char) (pos : Nat) : Option Char :=
  (src.drop pos).head?

/-- Port of `check_if_next_is`. -/
def checkIfNextIs (src : List Char) (pos : Nat) (c : Char) : Bool :=
  match charAt src pos with
  | some ci => ci == c
  | none => false

/-- Port of `check_if_next_fits`. -/
def checkIfNextFits (src : List Char) (pos : Nat) (pat : Char → Bool) : Bool :=
  match charAt src pos with
  | some c => pat c
  | none => false

/-- Port of `seek_until` from `jlexer.rs`.  Input: scan predicate, source and
current iterator index.  Output: the optional `(start, stop)` pair (absolute,
`stop` exclusive) and the new iterator index.  Note the early `return None`
when `start == 0`: a matching run that begins at source index 0 is consumed
by one character and then dropped ("the very first character is never a
sequence" in the source's own comment). -/
def seekUntil (f : Char → Bool) (src : List Char) (pos : Nat) :
    Option (Nat × Nat) × Nat :=
  match charAt src pos with
  | some c =>
    if f c then
      if pos = 0 then
        (none, pos + 1)
      else
        let stop := pos + 1 + ((src.drop (pos + 1)).takeWhile f).length
        (some (pos, stop), stop)
    else (none, pos)
  | none => (none, pos)

/-- Slice `src[a..b]` as a list of characters. -/
def slice (src : List Char) (a b : Nat) : List Char :=
  (src.drop a).take (b - a)

/-- Lexer state: iterator index plus the two-token memory `last_tk`
(`last0` is `last_tk[0]`, `last1` is `last_tk[1]`). -/
structure LexState where
  pos : Nat
  last0 : JLexerToken
  last1 : JLexerToken
deriving DecidableEq, Repr

/-- Port of `JLexer::expects_string_content`. -/
def expectsStringContent (s : LexState) : Bool :=
  decide (s.last1 = .StringToken) &&
    !(s.last0.isStringContent || decide (s.last0 = .StringToken))

/-- Port of `JLexer::try_lex_string`: scan up to (excluding) the next quote
mark. Returns the mid-level output `((token, 0-based position), new index)`. -/
def tryLexString (src : List Char) (pos : Nat) :
    Option ((JLexerToken × Nat) × Nat) :=
  match seekUntil (fun c => c ≠ '"') src pos with
  | (some (a, b), pos1) => some ((.StringContent (slice src a b), a), pos1)
  | (none, _) => none

/-- Parse a digit list into a natural number, as `str::parse` does on a
digits-only slice. -/
def digitsToNat (l : List Char) : Nat :=
  l.foldl (fun acc c => acc * 10 + (c.toNat - '0'.toNat)) 0

/-- Model of `str::parse::<isize>()` on slices drawn from `is_number`
characters: succeeds exactly on nonempty all-digit slices whose value fits a
64-bit signed integer (no sign is possible, `is_number` admits none). -/
def parseIsize (l : List Char) : Option Int :=
  if l ≠ [] ∧ (∀ c ∈ l, c.isDigit) ∧ digitsToNat l < 2 ^ 63 then
    some (Int.ofNat (digitsToNat l))
  else none

/-- Model of `str::parse::<f64>()` on slices drawn from `is_number`
characters (digits and dots): succeeds exactly when the slice has exactly one
dot and at least one digit; the value is the exact decimal value, modelled in
`ℚ` (the double rounding of the original is abstracted away; no claim below
distinguishes two decimal slices with equal exact value). -/
def parseF64 (l : List Char) : Option ℚ :=
  if l.count '.' = 1 ∧ (∀ c ∈ l, c.isDigit ∨ c = '.') ∧ (∃ c ∈ l, c.isDigit) then
    let ip := l.takeWhile (fun c => c ≠ '.')
    let fp := (l.dropWhile (fun c => c ≠ '.')).drop 1
    some ((digitsToNat ip : ℚ) + (digitsToNat fp : ℚ) / (10 : ℚ) ^ fp.length)
  else none

/-- Port of `JLexer::try_lex_number`. -/
def tryLexNumber (src : List Char) (pos : Nat) :
    Option ((JLexerToken × Nat) × Nat) :=
  match seekUntil isNumber src pos with
  | (some (a, b), pos1) =>
    let sl := slice src a b
    if sl.contains '.' then
      match parseF64 sl with
      | some q => some ((.NumberFloat q, a), pos1)
      | none => some ((.UnknownToken sl, a), pos1)
    else
      match parseIsize sl with
      | some n => some ((.NumberInteger n, a), pos1)
      | none => some ((.UnknownToken sl, a), pos1)
  | (none, _) => none

/-- Port of `JLexer::try_string_token` (keyword recognition): scan a maximal
alphabetic run and compare with the expected literal.  `Char.isAlpha` is the
ASCII fragment of Rust's `char::is_alphabetic`; all inputs considered are
ASCII. -/
def tryStringToken (src : List Char) (pos : Nat) (pat : List Char)
    (tk : JLexerToken) : Option ((JLexerToken × Nat) × Nat) :=
  match seekUntil Char.isAlpha src pos with
  | (some (a, b), pos1) =>
    let sl := slice src a b
    if sl = pat then some ((tk, a), pos1) else some ((.UnknownToken sl, a), pos1)
  | (none, _) => none

/-- Port of `JLexer::lex_structural`.  The final catch-all in the source is a
`panic!`; it is unreachable because both call sites guard the next character
with `is_structural` or a quote check, and is mapped to `none` here. -/
def lexStructural (src : List Char) (pos : Nat) :
    Option ((JLexerToken × Nat) × Nat) :=
  match charAt src pos with
  | none => none
  | some c =>
    if isWhitespaceChar c then
      some ((.Whitespace, pos), (seekUntil isWhitespaceChar src (pos + 1)).2)
    else if c = '{' then some ((.ObjectBegin, pos), pos + 1)
    else if c = '}' then some ((.ObjectEnd, pos), pos + 1)
    else if c = '[' then some ((.ArrayBegin, pos), pos + 1)
    else if c = ']' then some ((.ArrayEnd, pos), pos + 1)
    else if c = ':' then some ((.NameSeparator, pos), pos + 1)
    else if c = ',' then some ((.ValueSeparator, pos), pos + 1)
    else if c = '"' then some ((.StringToken, pos), pos + 1)
    else none

/-- One step of `<JLexer as Iterator>::next`: branch selection, then the
final `map` that shifts the reported position to 1-based and updates the
two-token memory. -/
def lexNext (src : List Char) (s : LexState) :
    Option ((JLexerToken × Nat) × LexState) :=
  let mid : Option ((JLexerToken × Nat) × Nat) :=
    if expectsStringContent s then
      if checkIfNextIs src s.pos '"' then lexStructural src s.pos
      else tryLexString src s.pos
    else if checkIfNextFits src s.pos isNumber then tryLexNumber src s.pos
    else if checkIfNextFits src s.pos isStructural then lexStructural src s.pos
    else if checkIfNextIs src s.pos 't' then
      tryStringToken src s.pos ['t', 'r', 'u', 'e'] .TrueToken
    else if checkIfNextIs src s.pos 'f' then
      tryStringToken src s.pos ['f', 'a', 'l', 's', 'e'] .FalseToken
    else if checkIfNextIs src s.pos 'n' then
      tryStringToken src s.pos ['n', 'u', 'l', 'l'] .NullToken
    else
      match seekUntil Char.isAlpha src s.pos with
      | (some (a, b), pos1) => some ((.UnknownToken (slice src a b), a), pos1)
      | (none, _) => none
  mid.map fun ((tk, p), pos1) => ((tk, p + 1), ⟨pos1, s.last1, tk⟩)

/-- Initial lexer state (`last_tk: [NullToken, NullToken]`). -/
def initLexState : LexState := ⟨0, .NullToken, .NullToken⟩

/-- Run the lexer from a state, with explicit fuel (structural recursion; the
canonical fuel `src.length + 1 - s.pos` is always sufficient, see
`lexNext_progress`). -/
def lexTokensFrom (src : List Char) : Nat → LexState → List (JLexerToken × Nat)
  | 0, _ => []
  | fuel + 1, s =>
    match lexNext src s with
    | none => []
    | some (tp, s1) => tp :: lexTokensFrom src fuel s1

/-- The full token stream of a source text. -/
def lexTokens (src : List Char) : List (JLexerToken × Nat) :=
  lexTokensFrom src (src.length + 1) initLexState

/-!  The grammar-validating partial parser (`ccjparse/src/jparser.rs`). -/

/-- Modelled from the spec: scalar JSON values produced while validating
(`JPartialValue` of the absent `jparser_types` module; its constructors and
payloads are pinned down by every use in `jparser.rs`): String, Integer,
Float, True, False, Null. -/
inductive JPValue where
  | String (s : List Char)
  | Integer (i : Int)
  | Float (q : ℚ)
  | True
  | False
  | Null
deriving DecidableEq, Repr

/-- Possible tokens created by the JPartialParser as input for JParser
(`JPartialToken` in `jparser.rs`). -/
inductive JPartialToken where
  | ObjectBegin
  | ObjectEnd
  | Array (a : List JPValue)
  | MemberName (s : List Char)
  | MemberValue (v : JPValue)
deriving DecidableEq, Repr

/-- Reduced variant of JPartialToken, interpreted as expectation of the
JPartialParser (`JPartialExpect` in `jparser.rs`). -/
inductive JPartialExpect where
  | ObjectBegin
  | ObjectEnd
  | MemberName
  | MemberValue
deriving DecidableEq, Repr, BEq

/-- Feedback payload of an unexpected-token error (`UnexpTokenFeedb`). -/
inductive UnexpTokenFeedb where
  | JPExpect (l : List JPartialExpect)
  | JPToken (t : JPartialToken)
  | JLToken (t : JLexerToken)
deriving DecidableEq, Repr

/-- Possible errors thrown by the JParser (`JParseError` in `jparser.rs`). -/
inductive JParseError where
  | NoBeginningObject (pos : Nat)
  | UnclosedObject (pos : Nat)
  | UnclosedArray (pos : Nat)
  | UnexpectedEnd (pos : Nat)
  | UnexpectedToken (pos : Nat) (found expected : UnexpTokenFeedb)
  | UnknownToken (pos : Nat) (s : List Char)
deriving DecidableEq, Repr

/-- The filter installed by `JPartialParser::new`: whitespace and bare quote
tokens are discarded before validation. -/
def keepToken : JLexerToken → Bool
  | .Whitespace => false
  | .StringToken => false
  | _ => true

/-- Filtered lexer stream, as seen by the JPartialParser. -/
def filteredTokens (src : List Char) : List (JLexerToken × Nat) :=
  (lexTokens src).filter fun tp => keepToken tp.1

/-- Does one expectation accept this lexer token?  Body of the match inside
`JPartialParser::was_expected`. -/
def expectMatches (e : JPartialExpect) (ltk : JLexerToken) : Bool :=
  match e with
  | .ObjectBegin => match ltk with | .ObjectBegin => true | _ => false
  | .ObjectEnd => match ltk with | .ObjectEnd => true | _ => false
  | .MemberName => ltk.isStringContent
  | .MemberValue =>
    match ltk with
    | .ArrayBegin | .ObjectBegin | .StringContent _ | .NumberFloat _
    | .NumberInteger _ | .NullToken | .TrueToken | .FalseToken => true
    | _ => false

/-- Port of `JPartialParser::was_expected`. -/
def wasExpected (expect : List JPartialExpect) (ltk : JLexerToken) (p : Nat) :
    Except JParseError Unit :=
  if expect.any fun e => expectMatches e ltk then .ok ()
  else .error (.UnexpectedToken p (.JLToken ltk) (.JPExpect expect))

/-- State of the JPartialParser apart from its lexer (expectation set,
open-object counter, element counter). -/
structure PPState where
  expect : List JPartialExpect
  objectCnt : Nat
  count : Nat
deriving DecidableEq, Repr

/-- Initial JPartialParser state (`JPartialParser::new`). -/
def initPP : PPState := ⟨[.ObjectBegin], 0, 0⟩

/-- Port of `crib_if_next_is` on the filtered token stream: peek without
consuming. -/
def cribIfNextIs (ts : List (JLexerToken × Nat)) (tk : JLexerToken) : Bool :=
  match ts with
  | (t, _) :: _ => decide (t = tk)
  | [] => false

/-- Port of `set_expect_after_member_value`: peek the next filtered token; a
value separator is consumed and `{MemberName}` expected, otherwise
`{ObjectEnd}` is expected. -/
def setExpectAfterMemberValue (ts : List (JLexerToken × Nat)) (s : PPState) :
    List (JLexerToken × Nat) × PPState :=
  if cribIfNextIs ts .ValueSeparator then
    (ts.tail, { s with expect := [.MemberName] })
  else
    (ts, { s with expect := [.ObjectEnd] })

/-- Port of `next_shall_be`: consume the next token and require it to equal
`exp`; report `UnexpectedEnd` on stream end, carrying the caller's position
`p`. -/
def nextShallBe (ts : List (JLexerToken × Nat)) (exp : JLexerToken) (p : Nat) :
    Except JParseError Unit × List (JLexerToken × Nat) :=
  match ts with
  | [] => (.error (.UnexpectedEnd p), [])
  | (tk, _) :: rest =>
    if tk = exp then (.ok (), rest)
    else (.error (.UnexpectedToken p (.JLToken tk) (.JLToken exp)), rest)

/-- Which lexer tokens are accepted as array elements, and their value
(match arms inside the `ArrayBegin` loop of `JPartialParser::next`). -/
def scalarOfToken : JLexerToken → Option JPValue
  | .StringContent s => some (.String s)
  | .NumberInteger i => some (.Integer i)
  | .NumberFloat f => some (.Float f)
  | .TrueToken => some .True
  | .FalseToken => some .False
  | .NullToken => some .Null
  | _ => none

/-- The `while let` element loop of the `ArrayBegin` arm of
`JPartialParser::next`: pull elements, pushing scalars; any other token is an
immediate `UnexpectedToken` (early `return`); after each element a peeked
value separator is consumed via a recursive `self.next()` call whose result
is discarded — that call always consumes exactly the separator and yields a
discarded expectation error (see `ppNext_valueSeparator` below), so it is
modelled as dropping the separator token.  Returns the element list and the
remaining stream. -/
def arrayElems (expect : List JPartialExpect) :
    List (JLexerToken × Nat) → List JPValue →
    Except JParseError (List JPValue) × List (JLexerToken × Nat)
  | [], acc => (.ok acc, [])
  | (tk, pi) :: rest, acc =>
    match scalarOfToken tk with
    | none => (.error (.UnexpectedToken pi (.JLToken tk) (.JPExpect expect)), rest)
    | some v =>
      match rest with
      | (.ValueSeparator, _) :: rest1 => arrayElems expect rest1 (acc ++ [v])
      | _ => (.ok (acc ++ [v]), rest)

deriving instance DecidableEq for Except

/-- Outcome of one `JPartialParser::next` call: stream end (`None`), a
produced item together with the rest of the stream and the new state, or a
`panic!` (the two `PANICSTR` branches, both unreachable behind
`was_expected`). -/
inductive PPStep where
  | stop
  | panicked
  | yield (r : Except JParseError (JPartialToken × Nat))
      (ts : List (JLexerToken × Nat)) (s : PPState)
deriving DecidableEq, Repr

/-- Port of `<JPartialParser as Iterator>::next` over the filtered token
stream.  `count` is incremented exactly where the source does (skipped by
`?`-propagation and early `return`s). -/
def ppNext (s : PPState) : List (JLexerToken × Nat) → PPStep
  | [] => .stop
  | (ltk, p) :: ts =>
    match wasExpected s.expect ltk p with
    | .error e => .yield (.error e) ts s
    | .ok () =>
      match ltk with
      | .ObjectBegin =>
        .yield (.ok (.ObjectBegin, p)) ts
          { expect := [.MemberName, .ObjectEnd], objectCnt := s.objectCnt + 1,
            count := s.count + 1 }
      | .ObjectEnd =>
        if s.objectCnt > 0 then
          let (ts1, s1) := setExpectAfterMemberValue ts s
          .yield (.ok (.ObjectEnd, p)) ts1
            { s1 with objectCnt := s.objectCnt - 1, count := s.count + 1 }
        else
          .yield (.error (.UnclosedObject p)) ts { s with count := s.count + 1 }
      | .ArrayBegin =>
        let out :=
          if cribIfNextIs ts .ArrayEnd then ((.ok [] : Except JParseError (List JPValue)), ts)
          else arrayElems s.expect ts []
        match out with
        | (.error e, ts1) => .yield (.error e) ts1 s
        | (.ok arr, ts1) =>
          match nextShallBe ts1 .ArrayEnd p with
          | (.error e, ts2) => .yield (.error e) ts2 s
          | (.ok (), ts2) =>
            let (ts3, s3) := setExpectAfterMemberValue ts2 s
            .yield (.ok (.Array arr, p)) ts3 { s3 with count := s.count + 1 }
      | .TrueToken =>
        let (ts1, s1) := setExpectAfterMemberValue ts s
        .yield (.ok (.MemberValue .True, p)) ts1 { s1 with count := s.count + 1 }
      | .FalseToken =>
        let (ts1, s1) := setExpectAfterMemberValue ts s
        .yield (.ok (.MemberValue .False, p)) ts1 { s1 with count := s.count + 1 }
      | .NullToken =>
        let (ts1, s1) := setExpectAfterMemberValue ts s
        .yield (.ok (.MemberValue .Null, p)) ts1 { s1 with count := s.count + 1 }
      | .StringContent str =>
        if s.expect.contains .MemberName then
          match nextShallBe ts .NameSeparator p with
          | (.error e, ts1) => .yield (.error e) ts1 s
          | (.ok (), ts1) =>
            .yield (.ok (.MemberName str, p)) ts1
              { s with expect := [.MemberValue, .ObjectBegin], count := s.count + 1 }
        else if s.expect.contains .MemberValue then
          let (ts1, s1) := setExpectAfterMemberValue ts s
          .yield (.ok (.MemberValue (.String str), p)) ts1
            { s1 with count := s.count + 1 }
        else .panicked
      | .NumberInteger i =>
        let (ts1, s1) := setExpectAfterMemberValue ts s
        .yield (.ok (.MemberValue (.Integer i), p)) ts1 { s1 with count := s.count + 1 }
      | .NumberFloat f =>
        let (ts1, s1) := setExpectAfterMemberValue ts s
        .yield (.ok (.MemberValue (.Float f), p)) ts1 { s1 with count := s.count + 1 }
      | .UnknownToken str =>
        .yield (.error (.UnknownToken p str)) ts { s with count := s.count + 1 }
      | _ => .panicked

/-- Run the partial parser to exhaustion, collecting the produced results
(fuelled; `ts.length + 1` is always sufficient since every step consumes at
least one token). -/
def ppRun : Nat → PPState → List (JLexerToken × Nat) →
    List (Except JParseError (JPartialToken × Nat))
  | 0, _, _ => []
  | fuel + 1, s, ts =>
    match ppNext s ts with
    | .stop => []
    | .panicked => []
    | .yield r ts1 s1 => r :: ppRun fuel s1 ts1

/-- The validated partial-token sequence of a source text. -/
def ppTokens (src : List Char) : List (Except JParseError (JPartialToken × Nat)) :=
  let ts := filteredTokens src
  ppRun (ts.length + 1) initPP ts

/-!  The tree builder (`JParser` in `ccjparse/src/jparser.rs`).  The final
tree types live in the absent `jparser_types` module and are modelled from
the spec (§3 of the design document), pinned down by their uses in
`jparser.rs`. -/

mutual
/-- Modelled from the spec: final tree values (`JValue` of the absent
`jparser_types` module): String, Integer, Float, True, False, Null, Array of
partial values, Object. -/
inductive JValue where
  | String (s : List Char)
  | Integer (i : Int)
  | Float (q : ℚ)
  | True
  | False
  | Null
  | Array (a : List JPValue)
  | Object (o : JObject)

/-- Modelled from the spec: a member is a (name, value) pair (`JMember` of
the absent `jparser_types` module). -/
inductive JMember where
  | mk (name : List Char) (value : JValue)

/-- Modelled from the spec: an object is an ordered list of members
(`JObject` of the absent `jparser_types` module); the default object has no
members. -/
inductive JObject where
  | mk (members : List JMember)
end

/-- Name of a member. -/
def JMember.name : JMember → List Char
  | .mk n _ => n

/-- Value of a member. -/
def JMember.value : JMember → JValue
  | .mk _ v => v

/-- Members of an object. -/
def JObject.members : JObject → List JMember
  | .mk m => m

/-- Modelled from the spec: conversion from partial value to tree value is a
straightforward tag mapping (`JValue::from(JPartialValue)`). -/
def JValue.from : JPValue → JValue
  | .String s => .String s
  | .Integer i => .Integer i
  | .Float q => .Float q
  | .True => .True
  | .False => .False
  | .Null => .Null

/-- Outcome of `JParser::parse_object`: the accumulated member list with the
remaining stream and state, a propagated parse error, a Rust `panic!`
(either `.unwrap()` on an exhausted iterator or a `PANICSTR` branch), or
exhaustion of the embedding's fuel (an artifact: unreachable with fuel larger
than the stream length). -/
inductive TreeOut where
  | ok (members : List JMember) (ts : List (JLexerToken × Nat)) (s : PPState)
  | failed (e : JParseError)
  | panicked
  | outOfFuel

/-- Port of `JParser::parse_object` (the object-begin was already consumed).
The loop accumulates into `acc` by appending, matching `members.push`; the
recursion into a nested object mirrors the recursive call in the source. -/
def parseObject : Nat → PPState → List (JLexerToken × Nat) → List JMember →
    TreeOut
  | 0, _, _, _ => .outOfFuel
  | fuel + 1, s, ts, acc =>
    match ppNext s ts with
    | .stop => .panicked
    | .panicked => .panicked
    | .yield (.error e) _ _ => .failed e
    | .yield (.ok (jtk, _)) ts1 s1 =>
      match jtk with
      | .ObjectEnd => .ok acc ts1 s1
      | .MemberName name =>
        match ppNext s1 ts1 with
        | .stop => .panicked
        | .panicked => .panicked
        | .yield (.error e) _ _ => .failed e
        | .yield (.ok (jtk2, _)) ts2 s2 =>
          match jtk2 with
          | .MemberValue v =>
            parseObject fuel s2 ts2 (acc ++ [.mk name (JValue.from v)])
          | .Array a =>
            parseObject fuel s2 ts2 (acc ++ [.mk name (.Array a)])
          | .ObjectBegin =>
            match parseObject fuel s2 ts2 [] with
            | .ok inner ts3 s3 =>
              parseObject fuel s3 ts3 (acc ++ [.mk name (.Object (.mk inner))])
            | out => out
          | _ => .panicked
      | _ => .panicked

/-- Outcome of `JParser::parse`. -/
inductive ParseOut where
  | ok (o : JObject)
  | failed (e : JParseError)
  | panicked
  | outOfFuel

/-- Port of `JParser::parse`: pull the first item of the partial parser; if
there is none, fail with `NoBeginningObject(1)`; otherwise the item itself is
discarded (bound to `_result` in the source) and `parse_object` builds the
main object. -/
def parse (src : List Char) : ParseOut :=
  let ts := filteredTokens src
  match ppNext initPP ts with
  | .stop => .failed (.NoBeginningObject 1)
  | .panicked => .panicked
  | .yield _r ts1 s1 =>
    match parseObject (ts.length + 1) s1 ts1 [] with
    | .ok members _ _ => .ok (.mk members)
    | .failed e => .failed e
    | .panicked => .panicked
    | .outOfFuel => .outOfFuel

/-!  A model of well-formed JSON object texts of the dialect this parser
implements (spec §3: members are name/value pairs in source order; values are
scalars, arrays of scalars, or nested objects), together with a canonical
rendering.  These definitions follow the spec, not the parser; the round-trip
theorems below relate them to the code above. -/

/-- Scalar document values, carrying the exact character data that is
rendered (digit lists for numbers, so that rendering is injective
syntax-wise). -/
inductive DocScalar where
  | str (s : List Char)
  | int (ds : List Char)
  | float (ip fp : List Char)
  | vtrue
  | vfalse
  | vnull
deriving DecidableEq, Repr

mutual
/-- Document member values: a scalar, an array of scalars, or a nested
object. -/
inductive DocValue where
  | scalar (v : DocScalar)
  | arr (elems : List DocScalar)
  | obj (o : DocMembers)
deriving DecidableEq, Repr

/-- An ordered chain of members of one object (possibly with repeated
names). -/
inductive DocMembers where
  | nil
  | cons (name : List Char) (v : DocValue) (rest : DocMembers)
deriving DecidableEq, Repr
end

/-- Well-formedness of a member name for the canonical rendering: nonempty
and quote-free. -/
def nameWFb (n : List Char) : Bool :=
  decide (n ≠ []) && n.all fun c => decide (c ≠ '"')

/-- Well-formedness of a scalar for the canonical rendering: strings are
nonempty and quote-free, integer digit strings are nonempty, all digits and
within the `isize` range, float parts are digits with at least one digit
present. -/
def scalarWFb : DocScalar → Bool
  | .str s => decide (s ≠ []) && s.all fun c => decide (c ≠ '"')
  | .int ds => decide (ds ≠ []) && ds.all Char.isDigit &&
      decide (digitsToNat ds < 2 ^ 63)
  | .float ip fp => ip.all Char.isDigit && fp.all Char.isDigit &&
      (decide (ip ≠ []) || decide (fp ≠ []))
  | _ => true

mutual
/-- Well-formedness of a document value. -/
def valueWFb : DocValue → Bool
  | .scalar v => scalarWFb v
  | .arr l => l.all scalarWFb
  | .obj o => membersWFb o

/-- Well-formedness of a member chain. -/
def membersWFb : DocMembers → Bool
  | .nil => true
  | .cons n v rest => nameWFb n && valueWFb v && membersWFb rest
end

/-- Canonical rendering of a scalar. -/
def renderScalar : DocScalar → List Char
  | .str s => '"' :: s ++ ['"']
  | .int ds => ds
  | .float ip fp => ip ++ '.' :: fp
  | .vtrue => ['t', 'r', 'u', 'e']
  | .vfalse => ['f', 'a', 'l', 's', 'e']
  | .vnull => ['n', 'u', 'l', 'l']

/-- Rendering of the elements of a nonempty array after its first element:
a comma before each further element, then the closing bracket. -/
def renderArrTail : List DocScalar → List Char
  | [] => [']']
  | e :: es => ',' :: renderScalar e ++ renderArrTail es

mutual
/-- Canonical rendering of a document value (no whitespace). -/
def renderValue : DocValue → List Char
  | .scalar v => renderScalar v
  | .arr [] => ['[', ']']
  | .arr (e :: es) => '[' :: renderScalar e ++ renderArrTail es
  | .obj o => '{' :: renderMembers o

/-- Canonical rendering of a member chain, including the closing brace. -/
def renderMembers : DocMembers → List Char
  | .nil => ['}']
  | .cons n v .nil => '"' :: n ++ '"' :: ':' :: renderValue v ++ ['}']
  | .cons n v (.cons n1 v1 rest) =>
    '"' :: n ++ '"' :: ':' :: renderValue v ++
      ',' :: renderMembers (.cons n1 v1 rest)
end

/-- Canonical rendering of a whole document. -/
def renderDoc (o : DocMembers) : List Char :=
  '{' :: renderMembers o

/-- What follows a member value in the rendering of its object: either the
closing brace, or a comma and the remaining members. -/
def renderMembersTail : DocMembers → List Char
  | .nil => ['}']
  | .cons n v r => ',' :: renderMembers (.cons n v r)

/-- The exact rational value of a decimal rendering `ip.fp`, as `parseF64`
computes it. -/
def floatVal (ip fp : List Char) : ℚ :=
  (digitsToNat ip : ℚ) + (digitsToNat fp : ℚ) / (10 : ℚ) ^ fp.length

/-- The lexer token a well-formed scalar lexes to. -/
def scalarToken : DocScalar → JLexerToken
  | .str s => .StringContent s
  | .int ds => .NumberInteger (Int.ofNat (digitsToNat ds))
  | .float ip fp => .NumberFloat (floatVal ip fp)
  | .vtrue => .TrueToken
  | .vfalse => .FalseToken
  | .vnull => .NullToken

/-- The partial value a well-formed scalar validates to. -/
def scalarPValue : DocScalar → JPValue
  | .str s => .String s
  | .int ds => .Integer (Int.ofNat (digitsToNat ds))
  | .float ip fp => .Float (floatVal ip fp)
  | .vtrue => .True
  | .vfalse => .False
  | .vnull => .Null

/-- Kept (post-filter) lexer tokens of a rendered array body after its first
element. -/
def arrTailKinds : List DocScalar → List JLexerToken
  | [] => [.ArrayEnd]
  | e :: es => .ValueSeparator :: scalarToken e :: arrTailKinds es

mutual
/-- Kept (post-filter) lexer tokens of a rendered value. -/
def valueKinds : DocValue → List JLexerToken
  | .scalar v => [scalarToken v]
  | .arr [] => [.ArrayBegin, .ArrayEnd]
  | .arr (e :: es) => .ArrayBegin :: scalarToken e :: arrTailKinds es
  | .obj o => .ObjectBegin :: membersKinds o

/-- Kept (post-filter) lexer tokens of a rendered member chain, including
the final object-end. -/
def membersKinds : DocMembers → List JLexerToken
  | .nil => [.ObjectEnd]
  | .cons n v .nil => .StringContent n :: .NameSeparator :: valueKinds v ++ [.ObjectEnd]
  | .cons n v (.cons n1 v1 rest) =>
    .StringContent n :: .NameSeparator :: valueKinds v ++
      .ValueSeparator :: membersKinds (.cons n1 v1 rest)
end

/-- Kept lexer tokens that follow a member value inside its object: either
the object-end, or a value separator and the remaining members. -/
def membersTailKinds : DocMembers → List JLexerToken
  | .nil => [.ObjectEnd]
  | .cons n v r => .ValueSeparator :: membersKinds (.cons n v r)

/-- Kept lexer tokens of a rendered array after its opening bracket. -/
def arrBodyKinds : List DocScalar → List JLexerToken
  | [] => [.ArrayEnd]
  | e :: es => scalarToken e :: arrTailKinds es

mutual
/-- The tree value a well-formed document value builds to. -/
def valueTree : DocValue → JValue
  | .scalar v => JValue.from (scalarPValue v)
  | .arr l => .Array (l.map scalarPValue)
  | .obj o => .Object (.mk (membersTree o))

/-- The member list a well-formed member chain builds to. -/
def membersTree : DocMembers → List JMember
  | .nil => []
  | .cons n v rest => .mk n (valueTree v) :: membersTree rest
end

/-- The member names of a document, in source order (duplicates kept). -/
def docNames : DocMembers → List (List Char)
  | .nil => []
  | .cons n _ rest => n :: docNames rest

/-- The number of members (top-level keys) of a document. -/
def docCount : DocMembers → Nat
  | .nil => 0
  | .cons _ _ rest => docCount rest + 1

/-- Canonical-fuel run of the lexer from a state: with fuel
`src.length + 1 - s.pos` the run never stops for lack of fuel (every
successful step advances the scan position, see `lexNext_progress`). -/
def lexRun (src : List Char) (s : LexState) : List (JLexerToken × Nat) :=
  lexTokensFrom src (src.length + 1 - s.pos) s

/-- Kept lexer-token kinds of a raw token list: what remains after the
JPartialParser's filter, forgetting positions. -/
def keptOf (l : List (JLexerToken × Nat)) : List JLexerToken :=
  (l.filter fun tp => keepToken tp.1).map Prod.fst

/-- The token produced by `try_lex_number` for a scanned slice. -/
def numTok (ds : List Char) : JLexerToken :=
  if ds.contains '.' then
    match parseF64 ds with
    | some q => .NumberFloat q
    | none => .UnknownToken ds
  else
    match parseIsize ds with
    | some n => .NumberInteger n
    | none => .UnknownToken ds

/-- The single-character structural tokens (excluding whitespace). -/
def structuralTok (c : Char) : Option JLexerToken :=
  if c = '{' then some .ObjectBegin
  else if c = '}' then some .ObjectEnd
  else if c = '[' then some .ArrayBegin
  else if c = ']' then some .ArrayEnd
  else if c = ':' then some .NameSeparator
  else if c = ',' then some .ValueSeparator
  else if c = '"' then some .StringToken
  else none

/-- A two-member document with a repeated member name, used as a concrete
instance: it renders to the text of a JSON object with duplicate keys. -/
def docAA : DocMembers :=
  .cons ['a'] (.scalar (.int ['1']))
    (.cons ['a'] (.scalar (.int ['2'])) .nil)

/-!  Theorems.  First a toolbox about list positions and the lexer's
progress, then exact characterizations of the lexer on rendered fragments,
then the grammar-validator and tree-builder simulations, and finally the
claims. -/

theorem charAt_of_drop {src : List Char} {n : Nat} {c : Char} {r : List Char}
    (h : src.drop n = c :: r) : charAt src n = some c := by
  simp [charAt, h]

theorem charAt_some_lt {src : List Char} {n : Nat} {c : Char}
    (h : charAt src n = some c) : n < src.length := by
  by_contra hle
  push_neg at hle
  rw [charAt, List.drop_eq_nil_of_le hle] at h
  simp at h

theorem drop_add_of_drop {src a r : List Char} {n : Nat}
    (h : src.drop n = a ++ r) : src.drop (n + a.length) = r := by
  have h1 : src.drop (n + a.length) = (src.drop n).drop a.length := by
    rw [List.drop_drop]
  rw [h1, h, List.drop_left]

theorem drop_succ_of_drop {src : List Char} {n : Nat} {c : Char} {r : List Char}
    (h : src.drop n = c :: r) : src.drop (n + 1) = r := by
  have := @drop_add_of_drop src [c] r n (by simpa using h)
  simpa using this

theorem takeWhile_all_append {f : Char → Bool} {a r : List Char}
    (ha : ∀ c ∈ a, f c = true) (hr : ∀ c, r.head? = some c → f c = false) :
    (a ++ r).takeWhile f = a := by
  induction a with
  | nil =>
    simp only [List.nil_append]
    cases r with
    | nil => rfl
    | cons c r1 =>
      have := hr c rfl
      simp [List.takeWhile, this]
  | cons c a1 ih =>
    have hc : f c = true := ha c (by simp)
    have ha1 : ∀ x ∈ a1, f x = true := fun x hx => ha x (by simp [hx])
    simp [List.takeWhile, hc, ih ha1]

theorem seekUntil_snd_ge (f : Char → Bool) (src : List Char) (pos : Nat) :
    pos ≤ (seekUntil f src pos).2 := by
  unfold seekUntil
  split
  · split
    · split
      · simp
      · simp
        omega
    · simp
  · simp

theorem seekUntil_some {f : Char → Bool} {src : List Char} {pos a b pos2 : Nat}
    (h : seekUntil f src pos = (some (a, b), pos2)) :
    a = pos ∧ pos2 = b ∧ pos < b ∧ pos < src.length := by
  unfold seekUntil at h
  split at h
  · rename_i c hc
    split at h
    · split at h
      · simp at h
      · simp only [Prod.mk.injEq, Option.some.injEq] at h
        obtain ⟨⟨ha, hb⟩, hp2⟩ := h
        refine ⟨ha.symm, ?_, ?_, charAt_some_lt hc⟩
        · omega
        · omega
    · simp at h
  · simp at h

theorem tryLexString_some {src : List Char} {pos : Nat} {tk : JLexerToken}
    {p pos2 : Nat} (h : tryLexString src pos = some ((tk, p), pos2)) :
    p = pos ∧ pos < pos2 ∧ pos < src.length := by
  unfold tryLexString at h
  split at h
  · rename_i a b pos1 hseek
    obtain ⟨ha, hb, hlt, hlen⟩ := seekUntil_some hseek
    simp only [Option.some.injEq, Prod.mk.injEq] at h
    obtain ⟨⟨-, hp⟩, hpos⟩ := h
    omega
  · simp at h

theorem tryLexNumber_some {src : List Char} {pos : Nat} {tk : JLexerToken}
    {p pos2 : Nat} (h : tryLexNumber src pos = some ((tk, p), pos2)) :
    p = pos ∧ pos < pos2 ∧ pos < src.length := by
  unfold tryLexNumber at h
  split at h
  · rename_i a b pos1 hseek
    obtain ⟨ha, hb, hlt, hlen⟩ := seekUntil_some hseek
    dsimp only at h
    split at h <;> split at h <;>
      simp only [Option.some.injEq, Prod.mk.injEq] at h <;>
      obtain ⟨⟨-, hp⟩, hpos⟩ := h <;>
      omega
  · simp at h

theorem tryStringToken_some {src : List Char} {pos : Nat} {pat : List Char}
    {tk0 tk : JLexerToken} {p pos2 : Nat}
    (h : tryStringToken src pos pat tk0 = some ((tk, p), pos2)) :
    p = pos ∧ pos < pos2 ∧ pos < src.length := by
  unfold tryStringToken at h
  split at h
  · rename_i a b pos1 hseek
    obtain ⟨ha, hb, hlt, hlen⟩ := seekUntil_some hseek
    dsimp only at h
    split at h <;>
      simp only [Option.some.injEq, Prod.mk.injEq] at h <;>
      obtain ⟨⟨-, hp⟩, hpos⟩ := h <;>
      omega
  · simp at h

theorem lexStructural_some {src : List Char} {pos : Nat} {tk : JLexerToken}
    {p pos2 : Nat} (h : lexStructural src pos = some ((tk, p), pos2)) :
    p = pos ∧ pos < pos2 ∧ pos < src.length := by
  unfold lexStructural at h
  split at h
  · simp at h
  · rename_i c hc
    have hlen := charAt_some_lt hc
    have hge := seekUntil_snd_ge isWhitespaceChar src (pos + 1)
    have key : ∀ (tk0 : JLexerToken) (x : Nat),
        some ((tk0, pos), x) = some ((tk, p), pos2) → pos + 1 ≤ x →
        p = pos ∧ pos < pos2 ∧ pos < src.length := by
      intro tk0 x hx hxe
      simp only [Option.some.injEq, Prod.mk.injEq] at hx
      obtain ⟨⟨-, hp⟩, hpos⟩ := hx
      omega
    repeat' split at h
    all_goals
      first
        | exact key _ _ h (by omega)
        | exact key _ _ h hge
        | simp at h

theorem lexNext_progress {src : List Char} {s : LexState}
    {tp : JLexerToken × Nat} {s1 : LexState}
    (h : lexNext src s = some (tp, s1)) : s.pos < s1.pos ∧ s.pos < src.length := by
  unfold lexNext at h
  simp only [Option.map_eq_some'] at h
  obtain ⟨⟨⟨tk, p⟩, pos1⟩, hmid, hout⟩ := h
  have hs1 : s1.pos = pos1 := by
    cases hout
    rfl
  rw [hs1]
  clear hout hs1
  split at hmid
  · split at hmid
    · exact ⟨(lexStructural_some hmid).2.1, (lexStructural_some hmid).2.2⟩
    · exact ⟨(tryLexString_some hmid).2.1, (tryLexString_some hmid).2.2⟩
  · split at hmid
    · exact ⟨(tryLexNumber_some hmid).2.1, (tryLexNumber_some hmid).2.2⟩
    · split at hmid
      · exact ⟨(lexStructural_some hmid).2.1, (lexStructural_some hmid).2.2⟩
      · split at hmid
        · exact ⟨(tryStringToken_some hmid).2.1, (tryStringToken_some hmid).2.2⟩
        · split at hmid
          · exact ⟨(tryStringToken_some hmid).2.1, (tryStringToken_some hmid).2.2⟩
          · split at hmid
            · exact ⟨(tryStringToken_some hmid).2.1, (tryStringToken_some hmid).2.2⟩
            · split at hmid
              · rename_i a b pos2 hseek
                obtain ⟨ha, hb, hlt, hlen⟩ := seekUntil_some hseek
                simp only [Option.some.injEq, Prod.mk.injEq] at hmid
                obtain ⟨⟨-, hp⟩, hpos⟩ := hmid
                omega
              · simp at hmid

theorem lexNext_none_of_le {src : List Char} {s : LexState}
    (h : src.length ≤ s.pos) : lexNext src s = none := by
  cases hx : lexNext src s with
  | none => rfl
  | some out =>
    obtain ⟨tp, s1⟩ := out
    have := (lexNext_progress hx).2
    omega

theorem lexTokensFrom_congr {src : List Char} :
    ∀ (f1 : Nat) (f2 : Nat) (s : LexState), src.length < s.pos + f1 →
      src.length < s.pos + f2 →
      lexTokensFrom src f1 s = lexTokensFrom src f2 s := by
  intro f1
  induction f1 with
  | zero =>
    intro f2 s h1 h2
    have hnone : lexNext src s = none := lexNext_none_of_le (by omega)
    cases f2 with
    | zero => rfl
    | succ f2 => simp [lexTokensFrom, hnone]
  | succ f1 ih =>
    intro f2 s h1 h2
    cases f2 with
    | zero =>
      have hnone : lexNext src s = none := lexNext_none_of_le (by omega)
      simp [lexTokensFrom, hnone]
    | succ f2 =>
      simp only [lexTokensFrom]
      cases hx : lexNext src s with
      | none => rfl
      | some out =>
        obtain ⟨tp, s1⟩ := out
        have hp := lexNext_progress hx
        have heq := ih f2 s1 (by omega) (by omega)
        dsimp only
        rw [heq]

theorem lexRun_step {src : List Char} {s : LexState} {tp : JLexerToken × Nat}
    {s1 : LexState} (h : lexNext src s = some (tp, s1)) :
    lexRun src s = tp :: lexRun src s1 := by
  have hp := lexNext_progress h
  unfold lexRun
  have hfuel : src.length + 1 - s.pos = (src.length - s.pos) + 1 := by omega
  rw [hfuel]
  simp only [lexTokensFrom, h]
  congr 1
  exact lexTokensFrom_congr _ _ _ (by omega) (by omega)

theorem lexRun_none {src : List Char} {s : LexState}
    (h : lexNext src s = none) : lexRun src s = [] := by
  unfold lexRun
  cases hf : src.length + 1 - s.pos with
  | zero => rfl
  | succ f => simp [lexTokensFrom, h]

theorem lexTokens_eq_lexRun (src : List Char) :
    lexTokens src = lexRun src initLexState := rfl

theorem expects_false_of_last1 {s : LexState} (h : s.last1 ≠ .StringToken) :
    expectsStringContent s = false := by
  simp [expectsStringContent, h]

theorem structuralTok_spec {c : Char} {tk : JLexerToken}
    (htk : structuralTok c = some tk) :
    (c = '{' ∧ tk = .ObjectBegin) ∨ (c = '}' ∧ tk = .ObjectEnd) ∨
    (c = '[' ∧ tk = .ArrayBegin) ∨ (c = ']' ∧ tk = .ArrayEnd) ∨
    (c = ':' ∧ tk = .NameSeparator) ∨ (c = ',' ∧ tk = .ValueSeparator) ∨
    (c = '"' ∧ tk = .StringToken) := by
  unfold structuralTok at htk
  repeat' split at htk
  all_goals simp_all

theorem lexRun_structural {src : List Char} {s : LexState} {c : Char}
    {tk : JLexerToken} {rest : List Char}
    (hd : src.drop s.pos = c :: rest) (htk : structuralTok c = some tk)
    (hexp : expectsStringContent s = false) :
    lexRun src s = (tk, s.pos + 1) :: lexRun src ⟨s.pos + 1, s.last1, tk⟩ := by
  apply lexRun_step
  have hca : charAt src s.pos = some c := charAt_of_drop hd
  rcases structuralTok_spec htk with ⟨rfl, rfl⟩ | ⟨rfl, rfl⟩ | ⟨rfl, rfl⟩ |
    ⟨rfl, rfl⟩ | ⟨rfl, rfl⟩ | ⟨rfl, rfl⟩ | ⟨rfl, rfl⟩ <;>
    simp [lexNext, hexp, checkIfNextFits, checkIfNextIs, hca, lexStructural,
      isNumber, isStructural, isWhitespaceChar]

theorem seekUntil_layout {f : Char → Bool} {src : List Char} {pos : Nat}
    {a rest : List Char} (hpos : pos ≠ 0)
    (hd : src.drop pos = a ++ rest) (hne : a ≠ [])
    (hsat : ∀ c ∈ a, f c = true)
    (hstop : ∀ c, rest.head? = some c → f c = false) :
    seekUntil f src pos = (some (pos, pos + a.length), pos + a.length) := by
  obtain ⟨c0, ct, rfl⟩ : ∃ c0 ct, a = c0 :: ct := by
    cases a with
    | nil => cases hne rfl
    | cons x xs => exact ⟨x, xs, rfl⟩
  have hca : charAt src pos = some c0 := charAt_of_drop (by simpa using hd)
  have hd2 : src.drop (pos + 1) = ct ++ rest := drop_succ_of_drop (by simpa using hd)
  have hf0 : f c0 = true := hsat c0 (by simp)
  have hct : ∀ c ∈ ct, f c = true := fun c hc => hsat c (by simp [hc])
  unfold seekUntil
  rw [hca]
  dsimp only
  rw [hf0, if_pos rfl, if_neg hpos, hd2, takeWhile_all_append hct hstop]
  refine Prod.ext ?_ ?_ <;> simp <;> omega

theorem slice_layout {src : List Char} {pos : Nat} {a rest : List Char}
    (hd : src.drop pos = a ++ rest) : slice src pos (pos + a.length) = a := by
  unfold slice
  rw [hd]
  have : pos + a.length - pos = a.length := by omega
  rw [this, List.take_left]

theorem tryLexString_layout {src : List Char} {pos : Nat} {content rest : List Char}
    (hpos : pos ≠ 0)
    (hd : src.drop pos = content ++ '"' :: rest) (hne : content ≠ [])
    (hq : ∀ c ∈ content, c ≠ '"') :
    tryLexString src pos =
      some ((.StringContent content, pos), pos + content.length) := by
  unfold tryLexString
  rw [seekUntil_layout hpos hd hne
    (fun c hc => by simpa using hq c hc)
    (fun c hc => by
      simp only [List.head?_cons, Option.some.injEq] at hc
      subst hc
      simp)]
  dsimp only
  rw [slice_layout hd]

theorem tryLexNumber_layout {src : List Char} {pos : Nat} {ds rest : List Char}
    (hpos : pos ≠ 0)
    (hd : src.drop pos = ds ++ rest) (hne : ds ≠ [])
    (hsat : ∀ c ∈ ds, isNumber c = true)
    (hstop : ∀ c, rest.head? = some c → isNumber c = false) :
    tryLexNumber src pos = some ((numTok ds, pos), pos + ds.length) := by
  unfold tryLexNumber
  rw [seekUntil_layout hpos hd hne hsat hstop]
  dsimp only
  rw [slice_layout hd]
  unfold numTok
  split
  · split <;> rfl
  · split <;> rfl

theorem tryStringToken_layout {src : List Char} {pos : Nat} {ds rest pat : List Char}
    {tk : JLexerToken} (hpos : pos ≠ 0)
    (hd : src.drop pos = ds ++ rest) (hne : ds ≠ [])
    (hsat : ∀ c ∈ ds, c.isAlpha = true)
    (hstop : ∀ c, rest.head? = some c → c.isAlpha = false) :
    tryStringToken src pos pat tk =
      some (((if ds = pat then tk else .UnknownToken ds), pos), pos + ds.length) := by
  unfold tryStringToken
  rw [seekUntil_layout hpos hd hne hsat hstop]
  dsimp only
  rw [slice_layout hd]
  split <;> rfl

theorem lexRun_string {src : List Char} {s : LexState} {content rest : List Char}
    (hd : src.drop s.pos = '"' :: (content ++ '"' :: rest))
    (hne : content ≠ []) (hq : ∀ c ∈ content, c ≠ '"')
    (h1 : s.last1 ≠ .StringToken) (h0 : s.last1.isStringContent = false) :
    lexRun src s =
      (.StringToken, s.pos + 1) :: (.StringContent content, s.pos + 2) ::
      (.StringToken, s.pos + content.length + 2) ::
      lexRun src ⟨s.pos + content.length + 2, .StringContent content, .StringToken⟩ := by
  have hexp : expectsStringContent s = false := expects_false_of_last1 h1
  have hd1 : src.drop (s.pos + 1) = content ++ '"' :: rest := drop_succ_of_drop hd
  obtain ⟨c0, ct, rfl⟩ : ∃ c0 ct, content = c0 :: ct := by
    cases content with
    | nil => cases hne rfl
    | cons x xs => exact ⟨x, xs, rfl⟩
  have step1 := @lexRun_structural _ _ _ .StringToken _ hd (by rfl) hexp
  rw [step1]
  have hca1 : charAt src (s.pos + 1) = some c0 := charAt_of_drop (by simpa using hd1)
  have hexp1 : expectsStringContent ⟨s.pos + 1, s.last1, .StringToken⟩ = true := by
    simp [expectsStringContent, h1, h0]
  have hc0 : (c0 == '"') = false := by
    have := hq c0 (by simp)
    simpa using this
  have step2 : lexNext src ⟨s.pos + 1, s.last1, .StringToken⟩ =
      some ((.StringContent (c0 :: ct), s.pos + 2),
        ⟨s.pos + 1 + (c0 :: ct).length, .StringToken, .StringContent (c0 :: ct)⟩) := by
    unfold lexNext
    rw [hexp1]
    rw [if_pos rfl]
    have hck : checkIfNextIs src (s.pos + 1) '"' = false := by
      simp [checkIfNextIs, hca1, hc0]
    rw [hck]
    dsimp only
    rw [if_neg (by simp)]
    rw [tryLexString_layout (by omega) hd1 (by simp) hq]
    rfl
  rw [lexRun_step step2]
  have hd2 : src.drop (s.pos + 1 + (c0 :: ct).length) = '"' :: rest :=
    drop_add_of_drop hd1
  have step3 := @lexRun_structural _
    ⟨s.pos + 1 + (c0 :: ct).length, .StringToken, .StringContent (c0 :: ct)⟩
    _ .StringToken _ hd2 (by rfl) (by simp [expectsStringContent])
  rw [step3]
  have e1 : s.pos + 1 + (c0 :: ct).length + 1 = s.pos + (c0 :: ct).length + 2 := by
    omega
  have e2 : s.pos + 1 + (c0 :: ct).length = s.pos + (c0 :: ct).length + 1 := by
    omega
  rw [e1, e2]

theorem lexRun_number {src : List Char} {s : LexState} {ds rest : List Char}
    (hd : src.drop s.pos = ds ++ rest) (hne : ds ≠ [])
    (hsat : ∀ c ∈ ds, isNumber c = true)
    (hstop : ∀ c, rest.head? = some c → isNumber c = false)
    (hpos : s.pos ≠ 0) (hexp : expectsStringContent s = false) :
    lexRun src s =
      (numTok ds, s.pos + 1) :: lexRun src ⟨s.pos + ds.length, s.last1, numTok ds⟩ := by
  apply lexRun_step
  obtain ⟨c0, ct, rfl⟩ : ∃ c0 ct, ds = c0 :: ct := by
    cases ds with
    | nil => cases hne rfl
    | cons x xs => exact ⟨x, xs, rfl⟩
  have hca : charAt src s.pos = some c0 := charAt_of_drop (by simpa using hd)
  unfold lexNext
  rw [hexp]
  rw [if_neg (by simp)]
  have hck : checkIfNextFits src s.pos isNumber = true := by
    simp only [checkIfNextFits, hca]
    exact hsat c0 (by simp)
  rw [hck]
  dsimp only
  rw [if_pos rfl]
  rw [tryLexNumber_layout hpos hd hne hsat hstop]
  rfl

theorem lexRun_trueKw {src : List Char} {s : LexState} {rest : List Char}
    (hd : src.drop s.pos = ['t', 'r', 'u', 'e'] ++ rest)
    (hstop : ∀ c, rest.head? = some c → c.isAlpha = false)
    (hpos : s.pos ≠ 0) (hexp : expectsStringContent s = false) :
    lexRun src s =
      (.TrueToken, s.pos + 1) :: lexRun src ⟨s.pos + 4, s.last1, .TrueToken⟩ := by
  apply lexRun_step
  have hca : charAt src s.pos = some 't' := charAt_of_drop (by simpa using hd)
  unfold lexNext
  rw [hexp]
  rw [if_neg (by simp)]
  rw [show checkIfNextFits src s.pos isNumber = false by
    simp [checkIfNextFits, hca]; decide]
  rw [if_neg (by simp)]
  rw [show checkIfNextFits src s.pos isStructural = false by
    simp [checkIfNextFits, hca]; decide]
  rw [if_neg (by simp)]
  rw [show checkIfNextIs src s.pos 't' = true by simp [checkIfNextIs, hca]]
  rw [if_pos rfl]
  rw [tryStringToken_layout hpos hd (by simp) (by decide) hstop]
  rfl

theorem lexRun_falseKw {src : List Char} {s : LexState} {rest : List Char}
    (hd : src.drop s.pos = ['f', 'a', 'l', 's', 'e'] ++ rest)
    (hstop : ∀ c, rest.head? = some c → c.isAlpha = false)
    (hpos : s.pos ≠ 0) (hexp : expectsStringContent s = false) :
    lexRun src s =
      (.FalseToken, s.pos + 1) :: lexRun src ⟨s.pos + 5, s.last1, .FalseToken⟩ := by
  apply lexRun_step
  have hca : charAt src s.pos = some 'f' := charAt_of_drop (by simpa using hd)
  unfold lexNext
  rw [hexp]
  rw [if_neg (by simp)]
  rw [show checkIfNextFits src s.pos isNumber = false by
    simp [checkIfNextFits, hca]; decide]
  rw [if_neg (by simp)]
  rw [show checkIfNextFits src s.pos isStructural = false by
    simp [checkIfNextFits, hca]; decide]
  rw [if_neg (by simp)]
  rw [show checkIfNextIs src s.pos 't' = false by
    simp [checkIfNextIs, hca]]
  rw [if_neg (by simp)]
  rw [show checkIfNextIs src s.pos 'f' = true by simp [checkIfNextIs, hca]]
  rw [if_pos rfl]
  rw [tryStringToken_layout hpos hd (by simp) (by decide) hstop]
  rfl

theorem lexRun_nullKw {src : List Char} {s : LexState} {rest : List Char}
    (hd : src.drop s.pos = ['n', 'u', 'l', 'l'] ++ rest)
    (hstop : ∀ c, rest.head? = some c → c.isAlpha = false)
    (hpos : s.pos ≠ 0) (hexp : expectsStringContent s = false) :
    lexRun src s =
      (.NullToken, s.pos + 1) :: lexRun src ⟨s.pos + 4, s.last1, .NullToken⟩ := by
  apply lexRun_step
  have hca : charAt src s.pos = some 'n' := charAt_of_drop (by simpa using hd)
  unfold lexNext
  rw [hexp]
  rw [if_neg (by simp)]
  rw [show checkIfNextFits src s.pos isNumber = false by
    simp [checkIfNextFits, hca]; decide]
  rw [if_neg (by simp)]
  rw [show checkIfNextFits src s.pos isStructural = false by
    simp [checkIfNextFits, hca]; decide]
  rw [if_neg (by simp)]
  rw [show checkIfNextIs src s.pos 't' = false by
    simp [checkIfNextIs, hca]]
  rw [if_neg (by simp)]
  rw [show checkIfNextIs src s.pos 'f' = false by
    simp [checkIfNextIs, hca]]
  rw [if_neg (by simp)]
  rw [show checkIfNextIs src s.pos 'n' = true by simp [checkIfNextIs, hca]]
  rw [if_pos rfl]
  rw [tryStringToken_layout hpos hd (by simp) (by decide) hstop]
  rfl

theorem dropWhile_all_append {f : Char → Bool} {a r : List Char}
    (ha : ∀ c ∈ a, f c = true) (hr : ∀ c, r.head? = some c → f c = false) :
    (a ++ r).dropWhile f = r := by
  induction a with
  | nil =>
    simp only [List.nil_append]
    cases r with
    | nil => rfl
    | cons c r1 =>
      have := hr c rfl
      simp [List.dropWhile, this]
  | cons c a1 ih =>
    have hc : f c = true := ha c (by simp)
    have ha1 : ∀ x ∈ a1, f x = true := fun x hx => ha x (by simp [hx])
    simp [List.dropWhile, hc, ih ha1]

theorem contains_dot_false {ds : List Char} (h : ∀ c ∈ ds, c.isDigit = true) :
    ds.contains '.' = false := by
  induction ds with
  | nil => rfl
  | cons c ct ih =>
    have hc := h c (by simp)
    have hne : ('.' == c) = false := by
      cases hcc : ('.' == c) with
      | false => rfl
      | true =>
        have : c = '.' := by
          have := eq_of_beq hcc
          exact this.symm
        subst this
        simp at hc
    simp only [List.contains_cons, hne, Bool.false_or]
    exact ih fun x hx => h x (by simp [hx])

theorem numTok_int {ds : List Char} (hne : ds ≠ [])
    (hdig : ∀ c ∈ ds, c.isDigit = true) (hrange : digitsToNat ds < 2 ^ 63) :
    numTok ds = .NumberInteger (Int.ofNat (digitsToNat ds)) := by
  unfold numTok
  rw [contains_dot_false hdig]
  simp only [Bool.false_eq_true, if_false]
  unfold parseIsize
  rw [if_pos ⟨hne, hdig, hrange⟩]

theorem count_dot_one {ip fp : List Char} (hip : ∀ c ∈ ip, c.isDigit = true)
    (hfp : ∀ c ∈ fp, c.isDigit = true) :
    (ip ++ '.' :: fp).count '.' = 1 := by
  have hz : ∀ (l : List Char), (∀ c ∈ l, c.isDigit = true) → l.count '.' = 0 := by
    intro l hl
    rw [List.count_eq_zero]
    intro hmem
    have := hl '.' hmem
    simp at this
  rw [List.count_append, List.count_cons_self, hz ip hip, hz fp hfp]

theorem parseF64_layout {ip fp : List Char} (hip : ∀ c ∈ ip, c.isDigit = true)
    (hfp : ∀ c ∈ fp, c.isDigit = true) (hne : ip ≠ [] ∨ fp ≠ []) :
    parseF64 (ip ++ '.' :: fp) = some (floatVal ip fp) := by
  unfold parseF64
  have hcond : (ip ++ '.' :: fp).count '.' = 1 ∧
      (∀ c ∈ ip ++ '.' :: fp, c.isDigit ∨ c = '.') ∧
      (∃ c ∈ ip ++ '.' :: fp, c.isDigit) := by
    refine ⟨count_dot_one hip hfp, ?_, ?_⟩
    · intro c hc
      rcases List.mem_append.mp hc with h | h
      · exact Or.inl (by simpa using hip c h)
      · rcases List.mem_cons.mp h with h | h
        · exact Or.inr h
        · exact Or.inl (by simpa using hfp c h)
    · rcases hne with h | h
      · obtain ⟨c, hc⟩ := List.exists_mem_of_ne_nil ip h
        exact ⟨c, List.mem_append.mpr (Or.inl hc), by simpa using hip c hc⟩
      · obtain ⟨c, hc⟩ := List.exists_mem_of_ne_nil fp h
        exact ⟨c, List.mem_append.mpr (Or.inr (List.mem_cons_of_mem _ hc)),
          by simpa using hfp c hc⟩
  rw [if_pos hcond]
  have htake : (ip ++ '.' :: fp).takeWhile (fun c => c ≠ '.') = ip := by
    apply takeWhile_all_append
    · intro c hc
      have := hip c hc
      simp only [ne_eq, decide_eq_true_eq]
      intro hcc
      subst hcc
      simp at this
    · intro c hc
      simp only [List.head?_cons, Option.some.injEq] at hc
      subst hc
      simp
  have hdrop : (ip ++ '.' :: fp).dropWhile (fun c => c ≠ '.') = '.' :: fp := by
    apply dropWhile_all_append
    · intro c hc
      have := hip c hc
      simp only [ne_eq, decide_eq_true_eq]
      intro hcc
      subst hcc
      simp at this
    · intro c hc
      simp only [List.head?_cons, Option.some.injEq] at hc
      subst hc
      simp
  rw [htake, hdrop]
  rfl

theorem numTok_float {ip fp : List Char} (hip : ∀ c ∈ ip, c.isDigit = true)
    (hfp : ∀ c ∈ fp, c.isDigit = true) (hne : ip ≠ [] ∨ fp ≠ []) :
    numTok (ip ++ '.' :: fp) = .NumberFloat (floatVal ip fp) := by
  unfold numTok
  have hdot : (ip ++ '.' :: fp).contains '.' = true := by
    have h1 : '.' ∈ ip ++ '.' :: fp := List.mem_append.mpr (Or.inr (by simp))
    simp [h1]
  rw [hdot]
  simp only [if_true]
  rw [parseF64_layout hip hfp hne]

theorem keptOf_append (a b : List (JLexerToken × Nat)) :
    keptOf (a ++ b) = keptOf a ++ keptOf b := by
  simp [keptOf, List.filter_append]

theorem keptOf_cons_keep {tk : JLexerToken} (p : Nat)
    (l : List (JLexerToken × Nat)) (h : keepToken tk = true) :
    keptOf ((tk, p) :: l) = tk :: keptOf l := by
  simp [keptOf, h]

theorem keptOf_cons_skip {tk : JLexerToken} (p : Nat)
    (l : List (JLexerToken × Nat)) (h : keepToken tk = false) :
    keptOf ((tk, p) :: l) = keptOf l := by
  simp [keptOf, h]

theorem keptOf_nil : keptOf [] = [] := rfl

theorem lexRun_scalar (e : DocScalar) {src : List Char} {s : LexState}
    {rest : List Char} (hwf : scalarWFb e = true)
    (hd : src.drop s.pos = renderScalar e ++ rest)
    (hstop : ∀ c, rest.head? = some c → isNumber c = false ∧ c.isAlpha = false)
    (hpos : s.pos ≠ 0) (h1 : s.last1 ≠ .StringToken)
    (h0 : s.last1.isStringContent = false) :
    ∃ raw s1, lexRun src s = raw ++ lexRun src s1 ∧
      keptOf raw = [scalarToken e] ∧
      s1.pos = s.pos + (renderScalar e).length ∧
      expectsStringContent s1 = false := by
  cases e with
  | str s0 =>
    simp only [scalarWFb, Bool.and_eq_true, decide_eq_true_eq,
      List.all_eq_true] at hwf
    obtain ⟨hne, hq⟩ := hwf
    have hd1 : src.drop s.pos = '"' :: (s0 ++ '"' :: rest) := by
      simpa [renderScalar, List.append_assoc] using hd
    have hrun := lexRun_string hd1 hne
      (fun c hc => by simpa using hq c hc) h1 h0
    refine ⟨[(.StringToken, s.pos + 1), (.StringContent s0, s.pos + 2),
      (.StringToken, s.pos + s0.length + 2)],
      ⟨s.pos + s0.length + 2, .StringContent s0, .StringToken⟩, ?_, ?_, ?_, ?_⟩
    · simpa using hrun
    · simp [keptOf, keepToken, scalarToken]
    · simp [renderScalar]
      omega
    · simp [expectsStringContent, JLexerToken.isStringContent]
  | int ds =>
    simp only [scalarWFb, Bool.and_eq_true, decide_eq_true_eq,
      List.all_eq_true] at hwf
    obtain ⟨⟨hne, hdig⟩, hrange⟩ := hwf
    have hnum := numTok_int hne hdig hrange
    have hrun := @lexRun_number _ _ ds _ (by simpa [renderScalar] using hd) hne
      (fun c hc => by have := hdig c hc; simp [isNumber, this])
      (fun c hc => (hstop c hc).1) hpos (expects_false_of_last1 h1)
    rw [hnum] at hrun
    refine ⟨[(.NumberInteger (Int.ofNat (digitsToNat ds)), s.pos + 1)],
      ⟨s.pos + ds.length, s.last1, .NumberInteger (Int.ofNat (digitsToNat ds))⟩,
      ?_, ?_, ?_, ?_⟩
    · simpa using hrun
    · simp [keptOf, keepToken, scalarToken]
    · simp [renderScalar]
    · exact expects_false_of_last1 (by simp)
  | float ip fp =>
    simp only [scalarWFb, Bool.and_eq_true, Bool.or_eq_true, decide_eq_true_eq,
      List.all_eq_true] at hwf
    obtain ⟨⟨hip, hfp⟩, hne⟩ := hwf
    have hnum := numTok_float hip hfp hne
    have hsat : ∀ c ∈ ip ++ '.' :: fp, isNumber c = true := by
      intro c hc
      rcases List.mem_append.mp hc with h | h
      · have := hip c h
        simp [isNumber, this]
      · rcases List.mem_cons.mp h with h | h
        · subst h
          simp [isNumber]
        · have := hfp c h
          simp [isNumber, this]
    have hnonempty : ip ++ '.' :: fp ≠ [] := by simp
    have hrun := @lexRun_number _ _ (ip ++ '.' :: fp) _
      (by simpa [renderScalar] using hd) hnonempty hsat
      (fun c hc => (hstop c hc).1) hpos (expects_false_of_last1 h1)
    rw [hnum] at hrun
    refine ⟨[(.NumberFloat (floatVal ip fp), s.pos + 1)],
      ⟨s.pos + (ip ++ '.' :: fp).length, s.last1, .NumberFloat (floatVal ip fp)⟩,
      ?_, ?_, ?_, ?_⟩
    · simpa using hrun
    · simp [keptOf, keepToken, scalarToken]
    · simp [renderScalar]
    · exact expects_false_of_last1 (by simp)
  | vtrue =>
    have hrun := lexRun_trueKw (by simpa [renderScalar] using hd)
      (fun c hc => (hstop c hc).2) hpos (expects_false_of_last1 h1)
    refine ⟨[(.TrueToken, s.pos + 1)], ⟨s.pos + 4, s.last1, .TrueToken⟩,
      ?_, ?_, ?_, ?_⟩
    · simpa using hrun
    · simp [keptOf, keepToken, scalarToken]
    · simp [renderScalar]
    · exact expects_false_of_last1 (by simp)
  | vfalse =>
    have hrun := lexRun_falseKw (by simpa [renderScalar] using hd)
      (fun c hc => (hstop c hc).2) hpos (expects_false_of_last1 h1)
    refine ⟨[(.FalseToken, s.pos + 1)], ⟨s.pos + 5, s.last1, .FalseToken⟩,
      ?_, ?_, ?_, ?_⟩
    · simpa using hrun
    · simp [keptOf, keepToken, scalarToken]
    · simp [renderScalar]
    · exact expects_false_of_last1 (by simp)
  | vnull =>
    have hrun := lexRun_nullKw (by simpa [renderScalar] using hd)
      (fun c hc => (hstop c hc).2) hpos (expects_false_of_last1 h1)
    refine ⟨[(.NullToken, s.pos + 1)], ⟨s.pos + 4, s.last1, .NullToken⟩,
      ?_, ?_, ?_, ?_⟩
    · simpa using hrun
    · simp [keptOf, keepToken, scalarToken]
    · simp [renderScalar]
    · exact expects_false_of_last1 (by simp)

theorem lexRun_arrTail (es : List DocScalar) :
    ∀ {src : List Char} {s : LexState} {rest : List Char},
    (∀ e ∈ es, scalarWFb e = true) →
    src.drop s.pos = renderArrTail es ++ rest →
    (∀ c, rest.head? = some c → isNumber c = false ∧ c.isAlpha = false) →
    s.pos ≠ 0 → expectsStringContent s = false →
    ∃ raw s1, lexRun src s = raw ++ lexRun src s1 ∧
      keptOf raw = arrTailKinds es ∧
      s1.pos = s.pos + (renderArrTail es).length ∧
      expectsStringContent s1 = false := by
  induction es with
  | nil =>
    intro src s rest hwf hd hstop hpos hexp
    have hd1 : src.drop s.pos = ']' :: rest := by simpa [renderArrTail] using hd
    have hrun := @lexRun_structural _ _ _ .ArrayEnd _ hd1 (by rfl) hexp
    refine ⟨[(.ArrayEnd, s.pos + 1)], ⟨s.pos + 1, s.last1, .ArrayEnd⟩, ?_, ?_, ?_, ?_⟩
    · simpa using hrun
    · simp [keptOf, keepToken, arrTailKinds]
    · simp [renderArrTail]
    · exact expects_false_of_last1 (by simp)
  | cons e es ih =>
    intro src s rest hwf hd hstop hpos hexp
    have hd1 : src.drop s.pos = ',' :: (renderScalar e ++ (renderArrTail es ++ rest)) := by
      simpa [renderArrTail, List.append_assoc] using hd
    have hstep := @lexRun_structural _ _ _ .ValueSeparator _ hd1 (by rfl) hexp
    have hd2 : src.drop (s.pos + 1) = renderScalar e ++ (renderArrTail es ++ rest) :=
      drop_succ_of_drop hd1
    have htail_ne : renderArrTail es ≠ [] := by
      cases es <;> simp [renderArrTail]
    have hstop2 : ∀ c, (renderArrTail es ++ rest).head? = some c →
        isNumber c = false ∧ c.isAlpha = false := by
      intro c hc
      cases es with
      | nil =>
        simp only [renderArrTail, List.cons_append, List.head?_cons,
          Option.some.injEq] at hc
        subst hc
        constructor <;> decide
      | cons e1 es1 =>
        simp only [renderArrTail, List.cons_append, List.head?_cons,
          Option.some.injEq] at hc
        subst hc
        constructor <;> decide
    have hscal := lexRun_scalar e (s := ⟨s.pos + 1, s.last1, .ValueSeparator⟩)
      (hwf e (by simp)) hd2 hstop2 (by simp) (by simp) rfl
    obtain ⟨rawE, s2, hrunE, hkeptE, hposE, hexpE⟩ := hscal
    have hposE2 : s2.pos = s.pos + 1 + (renderScalar e).length := by
      simpa using hposE
    have hd3 : src.drop s2.pos = renderArrTail es ++ rest := by
      rw [hposE2]
      exact drop_add_of_drop hd2
    have hrec := ih (fun x hx => hwf x (by simp [hx])) hd3 hstop (by omega) hexpE
    obtain ⟨rawT, s3, hrunT, hkeptT, hposT, hexpT⟩ := hrec
    refine ⟨(.ValueSeparator, s.pos + 1) :: (rawE ++ rawT), s3, ?_, ?_, ?_, ?_⟩
    · rw [hstep, hrunE, hrunT]
      simp [List.append_assoc]
    · rw [keptOf_cons_keep _ _ (by rfl), keptOf_append, hkeptE, hkeptT]
      simp [arrTailKinds]
    · rw [hposT, hposE2]
      simp [renderArrTail]
      omega
    · exact hexpT

theorem renderMembers_cons (n : List Char) (v : DocValue) (r : DocMembers) :
    renderMembers (.cons n v r) =
      '"' :: n ++ '"' :: ':' :: renderValue v ++ renderMembersTail r := by
  cases r <;> rfl

mutual

theorem lexRun_value (v : DocValue) :
    ∀ {src : List Char} {s : LexState} {rest : List Char},
    valueWFb v = true →
    src.drop s.pos = renderValue v ++ rest →
    (∀ c, rest.head? = some c → isNumber c = false ∧ c.isAlpha = false) →
    s.pos ≠ 0 → s.last1 ≠ .StringToken → s.last1.isStringContent = false →
    ∃ raw s1, lexRun src s = raw ++ lexRun src s1 ∧
      keptOf raw = valueKinds v ∧
      s1.pos = s.pos + (renderValue v).length ∧
      expectsStringContent s1 = false := by
  intro src s rest hwf hd hstop hpos h1 h0
  cases v with
  | scalar e =>
    have hwf1 : scalarWFb e = true := by simpa [valueWFb] using hwf
    have hd1 : src.drop s.pos = renderScalar e ++ rest := by
      simpa [renderValue] using hd
    obtain ⟨raw, s1, hrun, hkept, hpos1, hexp1⟩ :=
      lexRun_scalar e hwf1 hd1 hstop hpos h1 h0
    exact ⟨raw, s1, hrun, by simpa [valueKinds] using hkept,
      by simpa [renderValue] using hpos1, hexp1⟩
  | arr l =>
    cases l with
    | nil =>
      have hd1 : src.drop s.pos = '[' :: (']' :: rest) := by
        simpa [renderValue] using hd
      have hstep1 := @lexRun_structural _ _ _ .ArrayBegin _ hd1 (by rfl)
        (expects_false_of_last1 h1)
      have hd2 : src.drop (s.pos + 1) = ']' :: rest := drop_succ_of_drop hd1
      have hstep2 := @lexRun_structural _ ⟨s.pos + 1, s.last1, .ArrayBegin⟩ _
        .ArrayEnd _ hd2 (by rfl) (by simp [expectsStringContent])
      refine ⟨[(.ArrayBegin, s.pos + 1), (.ArrayEnd, s.pos + 2)],
        ⟨s.pos + 2, .ArrayBegin, .ArrayEnd⟩, ?_, ?_, ?_, ?_⟩
      · rw [hstep1]
        simp only at hstep2
        rw [hstep2]
        simp
      · simp [keptOf, keepToken, valueKinds]
      · simp [renderValue]
      · exact expects_false_of_last1 (by simp)
    | cons e es =>
      simp only [valueWFb, List.all_eq_true] at hwf
      have hd1 : src.drop s.pos =
          '[' :: (renderScalar e ++ (renderArrTail es ++ rest)) := by
        simpa [renderValue, List.append_assoc] using hd
      have hstep1 := @lexRun_structural _ _ _ .ArrayBegin _ hd1 (by rfl)
        (expects_false_of_last1 h1)
      have hd2 : src.drop (s.pos + 1) = renderScalar e ++ (renderArrTail es ++ rest) :=
        drop_succ_of_drop hd1
      have hstopE : ∀ c, (renderArrTail es ++ rest).head? = some c →
          isNumber c = false ∧ c.isAlpha = false := by
        intro c hc
        cases es with
        | nil =>
          simp only [renderArrTail, List.cons_append, List.head?_cons,
            Option.some.injEq] at hc
          subst hc
          constructor <;> decide
        | cons e1 es1 =>
          simp only [renderArrTail, List.cons_append, List.head?_cons,
            Option.some.injEq] at hc
          subst hc
          constructor <;> decide
      obtain ⟨rawE, s2, hrunE, hkeptE, hposE, hexpE⟩ :=
        lexRun_scalar e (s := ⟨s.pos + 1, s.last1, .ArrayBegin⟩)
          (hwf e (by simp)) hd2 hstopE (by simp) (by simp) rfl
      have hposE2 : s2.pos = s.pos + 1 + (renderScalar e).length := by
        simpa using hposE
      have hd3 : src.drop s2.pos = renderArrTail es ++ rest := by
        rw [hposE2]
        exact drop_add_of_drop hd2
      obtain ⟨rawT, s3, hrunT, hkeptT, hposT, hexpT⟩ :=
        lexRun_arrTail es (fun x hx => hwf x (by simp [hx])) hd3 hstop
          (by omega) hexpE
      refine ⟨(.ArrayBegin, s.pos + 1) :: (rawE ++ rawT), s3, ?_, ?_, ?_, ?_⟩
      · rw [hstep1, hrunE, hrunT]
        simp [List.append_assoc]
      · rw [keptOf_cons_keep _ _ (by rfl), keptOf_append, hkeptE, hkeptT]
        simp [valueKinds]
      · rw [hposT, hposE2]
        simp [renderValue]
        omega
      · exact hexpT
  | obj o =>
    have hwf1 : membersWFb o = true := by simpa [valueWFb] using hwf
    have hd1 : src.drop s.pos = '{' :: (renderMembers o ++ rest) := by
      simpa [renderValue] using hd
    have hstep1 := @lexRun_structural _ _ _ .ObjectBegin _ hd1 (by rfl)
      (expects_false_of_last1 h1)
    have hd2 : src.drop (s.pos + 1) = renderMembers o ++ rest :=
      drop_succ_of_drop hd1
    obtain ⟨rawM, s2, hrunM, hkeptM, hposM, hlastM⟩ :=
      lexRun_members o (s := ⟨s.pos + 1, s.last1, .ObjectBegin⟩)
        hwf1 hd2 (by simp) (by simp) rfl
    refine ⟨(.ObjectBegin, s.pos + 1) :: rawM, s2, ?_, ?_, ?_, ?_⟩
    · rw [hstep1, hrunM]
      rfl
    · rw [keptOf_cons_keep _ _ (by rfl), hkeptM]
      simp [valueKinds]
    · have : s2.pos = s.pos + 1 + (renderMembers o).length := by simpa using hposM
      rw [this]
      simp [renderValue]
      omega
    · exact expects_false_of_last1 (by simp [hlastM])

theorem lexRun_members (o : DocMembers) :
    ∀ {src : List Char} {s : LexState} {rest : List Char},
    membersWFb o = true →
    src.drop s.pos = renderMembers o ++ rest →
    s.pos ≠ 0 → s.last1 ≠ .StringToken → s.last1.isStringContent = false →
    ∃ raw s1, lexRun src s = raw ++ lexRun src s1 ∧
      keptOf raw = membersKinds o ∧
      s1.pos = s.pos + (renderMembers o).length ∧
      s1.last1 = .ObjectEnd := by
  intro src s rest hwf hd hpos h1 h0
  cases o with
  | nil =>
    have hd1 : src.drop s.pos = '}' :: rest := by simpa [renderMembers] using hd
    have hstep := @lexRun_structural _ _ _ .ObjectEnd _ hd1 (by rfl)
      (expects_false_of_last1 h1)
    exact ⟨[(.ObjectEnd, s.pos + 1)], ⟨s.pos + 1, s.last1, .ObjectEnd⟩,
      by simpa using hstep, by simp [keptOf, keepToken, membersKinds],
      by simp [renderMembers], rfl⟩
  | cons n v rest1 =>
    simp only [membersWFb, Bool.and_eq_true] at hwf
    obtain ⟨⟨hwfn, hwfv⟩, hwfr⟩ := hwf
    simp only [nameWFb, Bool.and_eq_true, decide_eq_true_eq,
      List.all_eq_true] at hwfn
    obtain ⟨hnne, hnq⟩ := hwfn
    have hd1 : src.drop s.pos =
        '"' :: (n ++ '"' ::
          (':' :: (renderValue v ++ (renderMembersTail rest1 ++ rest)))) := by
      cases rest1 <;>
        simpa [renderMembers, renderMembersTail, List.append_assoc] using hd
    have hstr := @lexRun_string _ _ n _
      (by simpa [List.append_assoc] using hd1) hnne
      (fun c hc => by simpa using hnq c hc) h1 h0
    have hdA : src.drop (s.pos + 1) =
        n ++ '"' :: (':' :: (renderValue v ++ (renderMembersTail rest1 ++ rest))) :=
      drop_succ_of_drop hd1
    have hdB : src.drop (s.pos + 1 + n.length) =
        '"' :: (':' :: (renderValue v ++ (renderMembersTail rest1 ++ rest))) :=
      drop_add_of_drop hdA
    have hdC : src.drop (s.pos + n.length + 2) =
        ':' :: (renderValue v ++ (renderMembersTail rest1 ++ rest)) := by
      have := drop_succ_of_drop hdB
      have e1 : s.pos + 1 + n.length + 1 = s.pos + n.length + 2 := by omega
      rwa [e1] at this
    have hstepC := @lexRun_structural _
      ⟨s.pos + n.length + 2, .StringContent n, .StringToken⟩ _ .NameSeparator _
      hdC (by rfl)
      (by simp [expectsStringContent, JLexerToken.isStringContent])
    have hdD : src.drop (s.pos + n.length + 3) =
        renderValue v ++ (renderMembersTail rest1 ++ rest) := by
      have := drop_succ_of_drop hdC
      have e1 : s.pos + n.length + 2 + 1 = s.pos + n.length + 3 := by omega
      rwa [e1] at this
    have hstopV : ∀ c, (renderMembersTail rest1 ++ rest).head? = some c →
        isNumber c = false ∧ c.isAlpha = false := by
      intro c hc
      cases rest1 with
      | nil =>
        simp only [renderMembersTail, List.cons_append, List.head?_cons,
          Option.some.injEq] at hc
        subst hc
        constructor <;> decide
      | cons n1 v1 r1 =>
        simp only [renderMembersTail, List.cons_append, List.head?_cons,
          Option.some.injEq] at hc
        subst hc
        constructor <;> decide
    obtain ⟨rawV, sV, hrunV, hkeptV, hposV, hexpV⟩ :=
      lexRun_value v (s := ⟨s.pos + n.length + 3, .StringToken, .NameSeparator⟩)
        hwfv hdD hstopV (by simp) (by simp) rfl
    have hposV2 : sV.pos = s.pos + n.length + 3 + (renderValue v).length := by
      simpa using hposV
    have hdE : src.drop sV.pos = renderMembersTail rest1 ++ rest := by
      rw [hposV2]
      exact drop_add_of_drop hdD
    cases rest1 with
    | nil =>
      have hdE1 : src.drop sV.pos = '}' :: rest := by
        simpa [renderMembersTail] using hdE
      have hstepF := @lexRun_structural _ _ _ .ObjectEnd _ hdE1 (by rfl) hexpV
      refine ⟨[(.StringToken, s.pos + 1), (.StringContent n, s.pos + 2),
        (.StringToken, s.pos + n.length + 2), (.NameSeparator, s.pos + n.length + 3)] ++
          rawV ++ [(.ObjectEnd, sV.pos + 1)],
        ⟨sV.pos + 1, sV.last1, .ObjectEnd⟩, ?_, ?_, ?_, rfl⟩
      · rw [hstr]
        simp only at hstepC
        rw [hstepC, hrunV, hstepF]
        simp [List.append_assoc]
      · rw [keptOf_append, keptOf_append, hkeptV]
        simp [keptOf, keepToken, membersKinds]
      · simp only [renderMembers, List.length_cons, List.length_append]
        simp
        omega
    | cons n1 v1 r1 =>
      have hdE1 : src.drop sV.pos =
          ',' :: (renderMembers (.cons n1 v1 r1) ++ rest) := by
        simpa [renderMembersTail, List.append_assoc] using hdE
      have hstepF := @lexRun_structural _ _ _ .ValueSeparator _ hdE1 (by rfl) hexpV
      have hdF : src.drop (sV.pos + 1) = renderMembers (.cons n1 v1 r1) ++ rest :=
        drop_succ_of_drop hdE1
      obtain ⟨rawR, s1, hrunR, hkeptR, hposR, hlastR⟩ :=
        lexRun_members (.cons n1 v1 r1) (s := ⟨sV.pos + 1, sV.last1, .ValueSeparator⟩)
          hwfr hdF (by simp) (by simp) rfl
      have hposR2 : s1.pos = sV.pos + 1 + (renderMembers (.cons n1 v1 r1)).length := by
        simpa using hposR
      refine ⟨[(.StringToken, s.pos + 1), (.StringContent n, s.pos + 2),
        (.StringToken, s.pos + n.length + 2), (.NameSeparator, s.pos + n.length + 3)] ++
          rawV ++ ((.ValueSeparator, sV.pos + 1) :: rawR),
        s1, ?_, ?_, ?_, hlastR⟩
      · rw [hstr]
        simp only at hstepC
        rw [hstepC, hrunV, hstepF, hrunR]
        simp [List.append_assoc]
      · simp [keptOf_append, keptOf_cons_keep, keptOf_cons_skip, keptOf_nil,
          keepToken, hkeptV, hkeptR, membersKinds]
      · rw [hposR2, hposV2, renderMembers_cons n v (.cons n1 v1 r1)]
        simp [renderMembersTail]
        omega

end

theorem filteredTokens_map_fst (src : List Char) :
    (filteredTokens src).map Prod.fst = keptOf (lexTokens src) := rfl

theorem lexKinds_doc (o : DocMembers) (t : List Char)
    (hwf : membersWFb o = true) :
    ∃ tail, (filteredTokens ('{' :: (renderMembers o ++ t))).map Prod.fst =
      .ObjectBegin :: (membersKinds o ++ tail) := by
  have hd0 : ('{' :: (renderMembers o ++ t)).drop 0 =
      '{' :: (renderMembers o ++ t) := rfl
  have hstep := @lexRun_structural ('{' :: (renderMembers o ++ t)) initLexState
    _ .ObjectBegin _ hd0 (by rfl) (by rfl)
  have hd1 : ('{' :: (renderMembers o ++ t)).drop 1 = renderMembers o ++ t := rfl
  obtain ⟨raw, s1, hrun, hkept, hpos1, hlast1⟩ :=
    lexRun_members o (s := ⟨1, .NullToken, .ObjectBegin⟩) hwf hd1
      (by simp) (by simp) rfl
  refine ⟨keptOf (lexRun ('{' :: (renderMembers o ++ t)) s1), ?_⟩
  rw [filteredTokens_map_fst, lexTokens_eq_lexRun, hstep]
  have heq : (⟨initLexState.pos + 1, initLexState.last1, .ObjectBegin⟩ : LexState) =
      ⟨1, .NullToken, .ObjectBegin⟩ := rfl
  rw [heq, hrun, keptOf_cons_keep _ _ (by rfl), keptOf_append, hkept]

theorem cons_of_map_fst {ts : List (JLexerToken × Nat)} {k : JLexerToken}
    {K : List JLexerToken} (h : ts.map Prod.fst = k :: K) :
    ∃ p ts1, ts = (k, p) :: ts1 ∧ ts1.map Prod.fst = K := by
  cases ts with
  | nil => simp at h
  | cons hd tl =>
    obtain ⟨tk0, p0⟩ := hd
    simp only [List.map_cons] at h
    obtain ⟨h1, h2⟩ := List.cons.injEq _ _ _ _ ▸ h
    exact ⟨p0, tl, by rw [h1], h2⟩

theorem scalarOfToken_scalarToken (e : DocScalar) :
    scalarOfToken (scalarToken e) = some (scalarPValue e) := by
  cases e <;> rfl

theorem wasExpected_ok_of_mem {exp : List JPartialExpect} {ltk : JLexerToken}
    {p : Nat} (e0 : JPartialExpect) (hmem : e0 ∈ exp)
    (hm : expectMatches e0 ltk = true) : wasExpected exp ltk p = .ok () := by
  unfold wasExpected
  rw [if_pos (List.any_eq_true.mpr ⟨e0, hmem, hm⟩)]

theorem sim_arrElems (es : List DocScalar) :
    ∀ {e : DocScalar} {ts : List (JLexerToken × Nat)} {acc : List JPValue}
      {exp : List JPartialExpect} {restK : List JLexerToken},
    ts.map Prod.fst = scalarToken e :: (arrTailKinds es ++ restK) →
    ∃ ts1, arrayElems exp ts acc = (.ok (acc ++ (e :: es).map scalarPValue), ts1) ∧
      ts1.map Prod.fst = .ArrayEnd :: restK := by
  induction es with
  | nil =>
    intro e ts acc exp restK h
    obtain ⟨p, ts1, rfl, h1⟩ := cons_of_map_fst h
    simp only [arrTailKinds, List.cons_append, List.nil_append] at h1
    obtain ⟨q, ts2, rfl, h2⟩ := cons_of_map_fst h1
    refine ⟨(.ArrayEnd, q) :: ts2, ?_, by simpa using h1⟩
    unfold arrayElems
    rw [scalarOfToken_scalarToken]
    rfl
  | cons e1 es1 ih =>
    intro e ts acc exp restK h
    obtain ⟨p, ts1, rfl, h1⟩ := cons_of_map_fst h
    simp only [arrTailKinds, List.cons_append] at h1
    obtain ⟨q, ts2, rfl, h2⟩ := cons_of_map_fst h1
    obtain ⟨ts3, hrec, h3⟩ := @ih e1 _ (acc ++ [scalarPValue e]) exp _ h2
    refine ⟨ts3, ?_, h3⟩
    unfold arrayElems
    rw [scalarOfToken_scalarToken]
    simp only
    rw [hrec]
    simp

theorem crib_eq_kinds {ts : List (JLexerToken × Nat)} {K : List JLexerToken}
    (h : ts.map Prod.fst = K) (tk : JLexerToken) :
    cribIfNextIs ts tk = decide (K.head? = some tk) := by
  cases ts with
  | nil =>
    simp only [List.map_nil] at h
    subst h
    simp [cribIfNextIs]
  | cons hd tl =>
    obtain ⟨k0, p0⟩ := hd
    simp only [List.map_cons] at h
    subst h
    simp [cribIfNextIs]

theorem ppNext_scalarValue (e : DocScalar) {s : PPState} {p : Nat}
    {ts : List (JLexerToken × Nat)}
    (hexp : s.expect = [.MemberValue, .ObjectBegin]) :
    ppNext s ((scalarToken e, p) :: ts) =
      (if cribIfNextIs ts .ValueSeparator then
        .yield (.ok (.MemberValue (scalarPValue e), p)) ts.tail
          ⟨[.MemberName], s.objectCnt, s.count + 1⟩
      else
        .yield (.ok (.MemberValue (scalarPValue e), p)) ts
          ⟨[.ObjectEnd], s.objectCnt, s.count + 1⟩) := by
  obtain ⟨ex, oc, ct⟩ := s
  simp only at hexp
  subst hexp
  cases e <;>
    simp [ppNext, wasExpected, expectMatches, setExpectAfterMemberValue,
      scalarToken, scalarPValue, JLexerToken.isStringContent,
      show (([JPartialExpect.MemberValue, JPartialExpect.ObjectBegin].contains
        JPartialExpect.MemberName) = false) by decide,
      show (([JPartialExpect.MemberValue, JPartialExpect.ObjectBegin].contains
        JPartialExpect.MemberValue) = true) by decide] <;>
    split <;> rfl

theorem ppNext_memberName {s : PPState} {p q : Nat} {n : List Char}
    {ts : List (JLexerToken × Nat)}
    (hany : s.expect.any (fun e => expectMatches e (.StringContent n)) = true)
    (hcont : s.expect.contains .MemberName = true) :
    ppNext s ((.StringContent n, p) :: (.NameSeparator, q) :: ts) =
      .yield (.ok (.MemberName n, p)) ts
        ⟨[.MemberValue, .ObjectBegin], s.objectCnt, s.count + 1⟩ := by
  obtain ⟨ex, oc, ct⟩ := s
  simp only at hany hcont
  simp [ppNext, wasExpected, hany, hcont, nextShallBe]

theorem ppNext_objectEnd {s : PPState} {p : Nat}
    {ts : List (JLexerToken × Nat)}
    (hmem : JPartialExpect.ObjectEnd ∈ s.expect) (hcnt : 0 < s.objectCnt) :
    ppNext s ((.ObjectEnd, p) :: ts) =
      (if cribIfNextIs ts .ValueSeparator then
        .yield (.ok (.ObjectEnd, p)) ts.tail
          ⟨[.MemberName], s.objectCnt - 1, s.count + 1⟩
      else
        .yield (.ok (.ObjectEnd, p)) ts
          ⟨[.ObjectEnd], s.objectCnt - 1, s.count + 1⟩) := by
  have hany : s.expect.any (fun e => expectMatches e .ObjectEnd) = true :=
    List.any_eq_true.mpr ⟨.ObjectEnd, hmem, rfl⟩
  obtain ⟨ex, oc, ct⟩ := s
  simp only at hany hcnt
  simp [ppNext, wasExpected, hany, hcnt, setExpectAfterMemberValue]
  split <;> rfl

theorem ppNext_objectBegin {s : PPState} {p : Nat}
    {ts : List (JLexerToken × Nat)}
    (hany : s.expect.any (fun e => expectMatches e .ObjectBegin) = true) :
    ppNext s ((.ObjectBegin, p) :: ts) =
      .yield (.ok (.ObjectBegin, p)) ts
        ⟨[.MemberName, .ObjectEnd], s.objectCnt + 1, s.count + 1⟩ := by
  obtain ⟨ex, oc, ct⟩ := s
  simp only at hany
  simp [ppNext, wasExpected, hany]

theorem scalarToken_ne_arrayEnd (e : DocScalar) :
    (scalarToken e = JLexerToken.ArrayEnd) = False := by
  cases e <;> simp [scalarToken]

theorem ppNext_arrayValue (l : List DocScalar) {s : PPState} {p : Nat}
    {ts : List (JLexerToken × Nat)} {restK : List JLexerToken}
    (hexp : s.expect = [.MemberValue, .ObjectBegin])
    (hk : ((.ArrayBegin, p) :: ts).map Prod.fst = valueKinds (.arr l) ++ restK) :
    ∃ ts2, ts2.map Prod.fst = restK ∧
      ppNext s ((.ArrayBegin, p) :: ts) =
        (if restK.head? = some .ValueSeparator then
          .yield (.ok (.Array (l.map scalarPValue), p)) ts2.tail
            ⟨[.MemberName], s.objectCnt, s.count + 1⟩
        else
          .yield (.ok (.Array (l.map scalarPValue), p)) ts2
            ⟨[.ObjectEnd], s.objectCnt, s.count + 1⟩) := by
  have hany : s.expect.any (fun e => expectMatches e .ArrayBegin) = true := by
    rw [hexp]
    decide
  cases l with
  | nil =>
    simp only [valueKinds, List.map_cons, List.cons_append, List.cons.injEq] at hk
    obtain ⟨-, hk1⟩ := hk
    simp only [List.nil_append] at hk1
    obtain ⟨q, ts2, rfl, h2⟩ := cons_of_map_fst (by simpa using hk1)
    refine ⟨ts2, h2, ?_⟩
    unfold ppNext
    have hw : wasExpected s.expect .ArrayBegin p = .ok () :=
      wasExpected_ok_of_mem .MemberValue (by rw [hexp]; simp) rfl
    simp only [hw]
    rw [show cribIfNextIs ((JLexerToken.ArrayEnd, q) :: ts2) .ArrayEnd = true by
      simp [cribIfNextIs]]
    simp only [if_true]
    rw [show nextShallBe ((JLexerToken.ArrayEnd, q) :: ts2) .ArrayEnd p =
      (.ok (), ts2) by simp [nextShallBe]]
    simp only
    unfold setExpectAfterMemberValue
    rw [crib_eq_kinds h2]
    rcases hh : restK.head? with - | k
    · simp [hh]
    · by_cases hvk : k = JLexerToken.ValueSeparator
      · subst hvk
        simp [hh]
      · simp [hh, hvk]
  | cons e es =>
    simp only [valueKinds, List.map_cons, List.cons_append, List.cons.injEq] at hk
    obtain ⟨-, hk1⟩ := hk
    have hk1' : ts.map Prod.fst = scalarToken e :: (arrTailKinds es ++ restK) := by
      simpa [List.append_assoc] using hk1
    obtain ⟨tsA, harr, hA⟩ := @sim_arrElems es _ _ [] s.expect _ hk1'
    obtain ⟨q, ts2, rfl, h2⟩ := cons_of_map_fst hA
    refine ⟨ts2, h2, ?_⟩
    unfold ppNext
    have hw : wasExpected s.expect .ArrayBegin p = .ok () :=
      wasExpected_ok_of_mem .MemberValue (by rw [hexp]; simp) rfl
    simp only [hw]
    have hcrib0 : cribIfNextIs ts .ArrayEnd = false := by
      obtain ⟨p0, ts0, rfl, -⟩ := cons_of_map_fst hk1'
      simp [cribIfNextIs, scalarToken_ne_arrayEnd]
    rw [hcrib0]
    simp only [Bool.false_eq_true, if_false]
    rw [harr]
    simp only [List.nil_append]
    rw [show nextShallBe ((JLexerToken.ArrayEnd, q) :: ts2) .ArrayEnd p =
      (.ok (), ts2) by simp [nextShallBe]]
    simp only
    unfold setExpectAfterMemberValue
    rw [crib_eq_kinds h2]
    rcases hh : restK.head? with - | k
    · simp [hh]
    · by_cases hvk : k = JLexerToken.ValueSeparator
      · subst hvk
        simp [hh]
      · simp [hh, hvk]

theorem tail_map_fst {ts : List (JLexerToken × Nat)} {K : List JLexerToken}
    (h : ts.map Prod.fst = K) : ts.tail.map Prod.fst = K.tail := by
  cases ts with
  | nil => simp_all
  | cons hd tl =>
    rw [← h]
    simp

theorem length_of_map_fst {ts : List (JLexerToken × Nat)} {K : List JLexerToken}
    (h : ts.map Prod.fst = K) : ts.length = K.length := by
  have := congrArg List.length h
  simpa using this

theorem membersKinds_cons (n : List Char) (v : DocValue) (r : DocMembers) :
    membersKinds (.cons n v r) =
      .StringContent n :: .NameSeparator :: (valueKinds v ++ membersTailKinds r) := by
  cases r <;> simp [membersKinds, membersTailKinds]

theorem valueKinds_arr (l : List DocScalar) :
    valueKinds (.arr l) = .ArrayBegin :: arrBodyKinds l := by
  cases l <;> rfl

theorem membersKinds_length_pos (o : DocMembers) : 0 < (membersKinds o).length := by
  cases o with
  | nil => simp [membersKinds]
  | cons n v r => rw [membersKinds_cons]; simp

theorem sim_members_aux :
    ∀ (nn : Nat) (o : DocMembers), sizeOf o ≤ nn →
    ∀ (fuel : Nat) (s : PPState) (ts : List (JLexerToken × Nat))
      (acc : List JMember) (restK : List JLexerToken),
    membersWFb o = true →
    ts.map Prod.fst = membersKinds o ++ restK →
    (s.expect = [.MemberName, .ObjectEnd] ∨
      (o ≠ .nil ∧ s.expect = [.MemberName]) ∨
      (o = .nil ∧ s.expect = [.ObjectEnd])) →
    0 < s.objectCnt →
    ts.length < fuel →
    ∃ ts1 s1, parseObject fuel s ts acc = .ok (acc ++ membersTree o) ts1 s1 ∧
      ts1.map Prod.fst =
        (if restK.head? = some .ValueSeparator then restK.tail else restK) ∧
      s1.expect = (if restK.head? = some .ValueSeparator then
        [JPartialExpect.MemberName] else [JPartialExpect.ObjectEnd]) ∧
      s1.objectCnt = s.objectCnt - 1 := by
  intro nn
  induction nn using Nat.strong_induction_on with
  | _ nn ih =>
  intro o hsz fuel s ts acc restK hwf hkinds hexp hcnt hfuel
  cases fuel with
  | zero => omega
  | succ f =>
  cases o with
  | nil =>
    have hkinds1 : ts.map Prod.fst = .ObjectEnd :: restK := by
      simpa [membersKinds] using hkinds
    obtain ⟨p, ts', rfl, hk'⟩ := cons_of_map_fst hkinds1
    have hmem : JPartialExpect.ObjectEnd ∈ s.expect := by
      rcases hexp with h | h | h
      · rw [h]; simp
      · exact absurd rfl h.1
      · rw [h.2]; simp
    have hstep := @ppNext_objectEnd _ p ts' hmem hcnt
    rw [crib_eq_kinds hk'] at hstep
    by_cases hv : restK.head? = some JLexerToken.ValueSeparator
    · refine ⟨ts'.tail, ⟨[.MemberName], s.objectCnt - 1, s.count + 1⟩, ?_, ?_, ?_, ?_⟩
      · simp only [parseObject]
        rw [hstep]
        simp [hv, membersTree]
      · simp [hv, tail_map_fst hk']
      · simp [hv]
      · rfl
    · refine ⟨ts', ⟨[.ObjectEnd], s.objectCnt - 1, s.count + 1⟩, ?_, ?_, ?_, ?_⟩
      · simp only [parseObject]
        rw [hstep]
        simp [hv, membersTree]
      · simp [hv, hk']
      · simp [hv]
      · rfl
  | cons n v rest1 =>
    have hwf0 : (nameWFb n && valueWFb v && membersWFb rest1) = true := by
      simpa [membersWFb] using hwf
    simp only [Bool.and_eq_true] at hwf0
    obtain ⟨⟨hwfn, hwfv⟩, hwfr⟩ := hwf0
    rw [membersKinds_cons] at hkinds
    simp only [List.cons_append] at hkinds
    obtain ⟨p, tsA, rfl, hkA⟩ := cons_of_map_fst hkinds
    obtain ⟨q, tsB, rfl, hkB⟩ := cons_of_map_fst hkA
    have hexp2 : s.expect = [.MemberName, .ObjectEnd] ∨ s.expect = [.MemberName] := by
      rcases hexp with h | h | h
      · exact Or.inl h
      · exact Or.inr h.2
      · exact absurd h.1 (by simp)
    have hany : s.expect.any (fun x => expectMatches x (.StringContent n)) = true := by
      rcases hexp2 with h | h <;> rw [h] <;> rfl
    have hcont : s.expect.contains .MemberName = true := by
      rcases hexp2 with h | h <;> rw [h] <;> decide
    have hstepName := @ppNext_memberName _ p q _ tsB hany hcont
    have hszr : sizeOf rest1 < sizeOf (DocMembers.cons n v rest1) := by
      simp
    cases v with
    | scalar e =>
      simp only [valueKinds, List.cons_append, List.singleton_append] at hkB
      obtain ⟨pv, tsC, rfl, hkC⟩ := cons_of_map_fst hkB
      have hstepVal := @ppNext_scalarValue e
        ⟨[.MemberValue, .ObjectBegin], s.objectCnt, s.count + 1⟩ pv tsC rfl
      rw [crib_eq_kinds hkC] at hstepVal
      simp only [parseObject]
      rw [hstepName]
      simp only
      rw [hstepVal]
      have hlenC : tsC.length = (membersTailKinds rest1 ++ restK).length :=
        length_of_map_fst hkC
      simp only [List.length_cons] at hfuel
      cases rest1 with
      | nil =>
        have hv : ((membersTailKinds DocMembers.nil ++ restK).head? =
            some JLexerToken.ValueSeparator) = False := by
          simp [membersTailKinds]
        simp only [hv, decide_False, Bool.false_eq_true, if_false]
        have hrec := ih (nn - 1) (by omega) DocMembers.nil (by omega) f
          ⟨[.ObjectEnd], s.objectCnt, s.count + 1 + 1⟩ tsC
          (acc ++ [JMember.mk n (JValue.from (scalarPValue e))]) restK hwfr
          (by simpa [membersTailKinds] using hkC)
          (Or.inr (Or.inr ⟨rfl, rfl⟩)) hcnt
          (by simp [membersTailKinds] at hlenC; omega)
        obtain ⟨ts1, s1, hpo, hk1, he1, hc1⟩ := hrec
        refine ⟨ts1, s1, ?_, hk1, he1, by simpa using hc1⟩
        simpa [membersTree, valueTree] using hpo
      | cons n1 v1 r1 =>
        have hv : ((membersTailKinds (DocMembers.cons n1 v1 r1) ++ restK).head? =
            some JLexerToken.ValueSeparator) = True := by
          simp [membersTailKinds]
        simp only [hv, decide_True, if_true]
        have hkC2 : tsC.tail.map Prod.fst = membersKinds (.cons n1 v1 r1) ++ restK := by
          have := tail_map_fst hkC
          simpa [membersTailKinds] using this
        have hrec := ih (nn - 1) (by omega) (DocMembers.cons n1 v1 r1)
          (by omega) f ⟨[.MemberName], s.objectCnt, s.count + 1 + 1⟩ tsC.tail
          (acc ++ [JMember.mk n (JValue.from (scalarPValue e))]) restK hwfr
          hkC2 (Or.inr (Or.inl ⟨by simp, rfl⟩)) hcnt
          (by
            have htl : tsC.tail.length ≤ tsC.length := by
              cases tsC <;> simp
            simp [membersTailKinds] at hlenC
            omega)
        obtain ⟨ts1, s1, hpo, hk1, he1, hc1⟩ := hrec
        refine ⟨ts1, s1, ?_, hk1, he1, by simpa using hc1⟩
        simpa [membersTree, valueTree] using hpo
    | arr l =>
      rw [valueKinds_arr] at hkB
      simp only [List.cons_append] at hkB
      obtain ⟨pv, tsC, rfl, hkC⟩ := cons_of_map_fst hkB
      rw [List.append_assoc] at hkC
      obtain ⟨ts2, hk2, hstepVal⟩ := @ppNext_arrayValue l
        ⟨[.MemberValue, .ObjectBegin], s.objectCnt, s.count + 1⟩ pv tsC
        (membersTailKinds rest1 ++ restK) rfl
        (by simp [valueKinds_arr, hkC])
      simp only [parseObject]
      rw [hstepName]
      simp only
      rw [hstepVal]
      have hlenC : tsC.length = (arrBodyKinds l ++ (membersTailKinds rest1 ++ restK)).length :=
        length_of_map_fst hkC
      have hlen2 : ts2.length = (membersTailKinds rest1 ++ restK).length :=
        length_of_map_fst hk2
      simp only [List.length_cons] at hfuel
      have hbody_pos : 0 < (arrBodyKinds l).length := by
        cases l <;> simp [arrBodyKinds]
      cases rest1 with
      | nil =>
        have hv : ((membersTailKinds DocMembers.nil ++ restK).head? =
            some JLexerToken.ValueSeparator) = False := by
          simp [membersTailKinds]
        simp only [hv, if_false]
        have hrec := ih (nn - 1) (by omega) DocMembers.nil (by omega) f
          ⟨[.ObjectEnd], s.objectCnt, s.count + 1 + 1⟩ ts2
          (acc ++ [JMember.mk n (JValue.Array (l.map scalarPValue))]) restK hwfr
          (by simpa [membersTailKinds] using hk2)
          (Or.inr (Or.inr ⟨rfl, rfl⟩)) hcnt
          (by
            simp [membersTailKinds, List.length_append] at hlenC hlen2
            omega)
        obtain ⟨ts1, s1, hpo, hk1, he1, hc1⟩ := hrec
        refine ⟨ts1, s1, ?_, hk1, he1, by simpa using hc1⟩
        simpa [membersTree, valueTree] using hpo
      | cons n1 v1 r1 =>
        have hv : ((membersTailKinds (DocMembers.cons n1 v1 r1) ++ restK).head? =
            some JLexerToken.ValueSeparator) = True := by
          simp [membersTailKinds]
        simp only [hv, if_true]
        have hk22 : ts2.tail.map Prod.fst = membersKinds (.cons n1 v1 r1) ++ restK := by
          have := tail_map_fst hk2
          simpa [membersTailKinds] using this
        have hrec := ih (nn - 1) (by omega) (DocMembers.cons n1 v1 r1)
          (by omega) f ⟨[.MemberName], s.objectCnt, s.count + 1 + 1⟩ ts2.tail
          (acc ++ [JMember.mk n (JValue.Array (l.map scalarPValue))]) restK hwfr
          hk22 (Or.inr (Or.inl ⟨by simp, rfl⟩)) hcnt
          (by
            have htl : ts2.tail.length ≤ ts2.length := by
              cases ts2 <;> simp
            simp [membersTailKinds, List.length_append] at hlenC hlen2
            omega)
        obtain ⟨ts1, s1, hpo, hk1, he1, hc1⟩ := hrec
        refine ⟨ts1, s1, ?_, hk1, he1, by simpa using hc1⟩
        simpa [membersTree, valueTree] using hpo
    | obj o1 =>
      simp only [valueKinds, List.cons_append] at hkB
      obtain ⟨pv, tsC, rfl, hkC⟩ := cons_of_map_fst hkB
      have hszo : sizeOf o1 < sizeOf (DocMembers.cons n (DocValue.obj o1) rest1) := by
        simp
        omega
      have hstepOB := @ppNext_objectBegin
        ⟨[.MemberValue, .ObjectBegin], s.objectCnt, s.count + 1⟩ pv tsC (by rfl)
      simp only [parseObject]
      rw [hstepName]
      simp only
      rw [hstepOB]
      have hwfo : membersWFb o1 = true := by simpa [valueWFb] using hwfv
      simp only [List.length_cons] at hfuel
      have hlenC : tsC.length =
          (membersKinds o1 ++ (membersTailKinds rest1 ++ restK)).length :=
        length_of_map_fst (by simpa [List.append_assoc] using hkC)
      have hnested := ih (nn - 1) (by omega) o1 (by omega) f
        ⟨[.MemberName, .ObjectEnd], s.objectCnt + 1, s.count + 1 + 1⟩ tsC []
        (membersTailKinds rest1 ++ restK) hwfo
        (by simpa [List.append_assoc] using hkC)
        (Or.inl rfl) (by simp)
        (by
          simp [List.length_append] at hlenC
          omega)
      obtain ⟨ts3, s3, hpo3, hk3, he3, hc3⟩ := hnested
      simp only [hpo3, List.nil_append]
      have hc3' : s3.objectCnt = s.objectCnt := by simpa using hc3
      have hlen3 : ts3.length ≤ (membersTailKinds rest1 ++ restK).length := by
        have := length_of_map_fst hk3
        by_cases hvv : (membersTailKinds rest1 ++ restK).head? =
            some JLexerToken.ValueSeparator
        · rw [if_pos hvv] at this
          rw [this]
          cases hmt : membersTailKinds rest1 ++ restK <;> simp
        · rw [if_neg hvv] at this
          omega
      cases rest1 with
      | nil =>
        have hv : ¬ ((membersTailKinds DocMembers.nil ++ restK).head? =
            some JLexerToken.ValueSeparator) := by
          simp [membersTailKinds]
        rw [if_neg hv] at hk3
        rw [if_neg hv] at he3
        have hrec := ih (nn - 1) (by omega) DocMembers.nil (by omega) f s3 ts3
          (acc ++ [JMember.mk n (JValue.Object (JObject.mk (membersTree o1)))]) restK
          hwfr (by simpa [membersTailKinds] using hk3)
          (Or.inr (Or.inr ⟨rfl, he3⟩)) (by omega)
          (by
            have := length_of_map_fst hk3
            simp [membersTailKinds, List.length_append] at this hlenC
            omega)
        obtain ⟨ts1, s1, hpo, hk1, he1, hc1⟩ := hrec
        refine ⟨ts1, s1, ?_, hk1, he1, by rw [hc1, hc3']⟩
        simpa [membersTree, valueTree] using hpo
      | cons n1 v1 r1 =>
        have hv : (membersTailKinds (DocMembers.cons n1 v1 r1) ++ restK).head? =
            some JLexerToken.ValueSeparator := by
          simp [membersTailKinds]
        rw [if_pos hv] at hk3
        rw [if_pos hv] at he3
        have hk32 : ts3.map Prod.fst = membersKinds (.cons n1 v1 r1) ++ restK := by
          simpa [membersTailKinds] using hk3
        have hrec := ih (nn - 1) (by omega) (DocMembers.cons n1 v1 r1)
          (by omega) f s3 ts3
          (acc ++ [JMember.mk n (JValue.Object (JObject.mk (membersTree o1)))]) restK
          hwfr hk32 (Or.inr (Or.inl ⟨by simp, he3⟩)) (by omega)
          (by
            have := length_of_map_fst hk32
            have hmt : (membersTailKinds (DocMembers.cons n1 v1 r1)).length =
                (membersKinds (DocMembers.cons n1 v1 r1)).length + 1 := by
              simp [membersTailKinds]
            simp [List.length_append] at this hlenC
            omega)
        obtain ⟨ts1, s1, hpo, hk1, he1, hc1⟩ := hrec
        refine ⟨ts1, s1, ?_, hk1, he1, by rw [hc1, hc3']⟩
        simpa [membersTree, valueTree] using hpo

theorem parse_render_ok (o : DocMembers) (t : List Char)
    (hwf : membersWFb o = true) :
    parse ('{' :: (renderMembers o ++ t)) = .ok (.mk (membersTree o)) := by
  obtain ⟨tail, hk⟩ := lexKinds_doc o t hwf
  obtain ⟨p, ts1, hts, hk1⟩ := cons_of_map_fst hk
  have hOB := @ppNext_objectBegin initPP p ts1 (by rfl)
  simp only [parse, hts, hOB]
  have hfuel : ts1.length < ((.ObjectBegin, p) :: ts1).length + 1 := by
    simp only [List.length_cons]
    omega
  obtain ⟨ts2, s2, hpo, -, -, -⟩ :=
    sim_members_aux (sizeOf o) o le_rfl (((.ObjectBegin, p) :: ts1).length + 1)
      ⟨[.MemberName, .ObjectEnd], initPP.objectCnt + 1, initPP.count + 1⟩
      ts1 [] tail hwf hk1 (Or.inl rfl) (by simp [initPP]) hfuel
  rw [hpo]
  simp

theorem membersTree_names (o : DocMembers) :
    (membersTree o).map JMember.name = docNames o := by
  cases o with
  | nil => rfl
  | cons n v rest =>
    simp [membersTree, docNames, JMember.name, membersTree_names rest]

theorem membersTree_length (o : DocMembers) :
    (membersTree o).length = docCount o := by
  cases o with
  | nil => rfl
  | cons n v rest => simp [membersTree, docCount, membersTree_length rest]

/-!  Further characterizations of single validator steps: reaction to a value
separator and to an unknown token, and the shapes of `nextShallBe`,
`arrayElems` and the array arm of `ppNext`. -/

theorem any_expectMatches_eq_false {l : List JPartialExpect} {tk : JLexerToken}
    (h : ∀ e, expectMatches e tk = false) :
    l.any (fun e => expectMatches e tk) = false := by
  induction l with
  | nil => rfl
  | cons e rest ih => simp [List.any_cons, h e, ih]

theorem expectMatches_valueSeparator_false (e : JPartialExpect) :
    expectMatches e .ValueSeparator = false := by
  cases e <;> rfl

theorem expectMatches_unknownToken_false (w : List Char) (e : JPartialExpect) :
    expectMatches e (.UnknownToken w) = false := by
  cases e <;> rfl

/-- A value separator is never in the expectation set's reach: `was_expected`
rejects it, the separator is consumed, an `UnexpectedToken` error is yielded
and the state is unchanged.  This justifies modelling the discarded
`self.next()` call of the array element loop as dropping the separator. -/
theorem ppNext_valueSeparator (s : PPState) (p : Nat)
    (ts : List (JLexerToken × Nat)) :
    ppNext s ((.ValueSeparator, p) :: ts) =
      .yield (.error (.UnexpectedToken p (.JLToken .ValueSeparator)
        (.JPExpect s.expect))) ts s := by
  have h := any_expectMatches_eq_false (l := s.expect)
    expectMatches_valueSeparator_false
  simp [ppNext, wasExpected, h]

/-- `was_expected` rejects an unknown token no matter the expectation set, so
the validator reports it as `UnexpectedToken`; the `UnknownToken` arm of
`JPartialParser::next` (which would build `JParseError::UnknownToken`) is
unreachable. -/
theorem ppNext_unknownToken (s : PPState) (w : List Char) (p : Nat)
    (ts : List (JLexerToken × Nat)) :
    ppNext s ((.UnknownToken w, p) :: ts) =
      .yield (.error (.UnexpectedToken p (.JLToken (.UnknownToken w))
        (.JPExpect s.expect))) ts s := by
  have h := any_expectMatches_eq_false (l := s.expect)
    (expectMatches_unknownToken_false w)
  simp [ppNext, wasExpected, h]

theorem nextShallBe_shape (ts : List (JLexerToken × Nat)) (exp : JLexerToken)
    (p : Nat) :
    (∃ ts1, nextShallBe ts exp p = (.ok (), ts1)) ∨
    (∃ tk ts1, nextShallBe ts exp p =
      (.error (.UnexpectedToken p (.JLToken tk) (.JLToken exp)), ts1)) ∨
    nextShallBe ts exp p = (.error (.UnexpectedEnd p), []) := by
  cases ts with
  | nil => exact Or.inr (Or.inr rfl)
  | cons hd rest =>
    obtain ⟨tk, q⟩ := hd
    by_cases h : tk = exp
    · exact Or.inl ⟨rest, by simp [nextShallBe, h]⟩
    · exact Or.inr (Or.inl ⟨tk, rest, by simp [nextShallBe, h]⟩)

/-- The element loop of the array arm either succeeds with an element list,
or fails with an `UnexpectedToken` at the offending element (a token that is
not a scalar value token), reporting the expectation set. -/
theorem arrayElems_shape (exp : List JPartialExpect) :
    ∀ (n : Nat) (ts : List (JLexerToken × Nat)) (acc : List JPValue),
      ts.length ≤ n →
      (∃ l rest, arrayElems exp ts acc = (.ok l, rest)) ∨
      (∃ q tk rest, scalarOfToken tk = none ∧
        arrayElems exp ts acc =
          (.error (.UnexpectedToken q (.JLToken tk) (.JPExpect exp)), rest)) := by
  intro n
  induction n with
  | zero =>
    intro ts acc hle
    have hts : ts = [] := List.length_eq_zero.mp (Nat.le_zero.mp hle)
    subst hts
    exact Or.inl ⟨acc, [], rfl⟩
  | succ n ih =>
    intro ts acc hle
    cases ts with
    | nil => exact Or.inl ⟨acc, [], rfl⟩
    | cons hd rest =>
      obtain ⟨tk, q⟩ := hd
      cases hsc : scalarOfToken tk with
      | none =>
        refine Or.inr ⟨q, tk, rest, hsc, ?_⟩
        unfold arrayElems
        rw [hsc]
      | some v =>
        unfold arrayElems
        rw [hsc]
        simp only
        cases rest with
        | nil => exact Or.inl ⟨acc ++ [v], [], rfl⟩
        | cons hd2 rest1 =>
          obtain ⟨tk2, q2⟩ := hd2
          by_cases hvs : tk2 = JLexerToken.ValueSeparator
          · subst hvs
            exact ih rest1 (acc ++ [v])
              (by simp only [List.length_cons] at hle; omega)
          · cases tk2 <;> first
              | exact absurd rfl hvs
              | exact Or.inl ⟨acc ++ [v], _, rfl⟩

/-- The array arm of the validator as a whole: it either emits one
`Array(list)` partial token, or an `UnexpectedToken` error, or an
`UnexpectedEnd` error at the array's position when the stream runs out
before the closing bracket. -/
theorem ppNext_arrayBegin_shape (s : PPState) (p : Nat)
    (ts : List (JLexerToken × Nat))
    (hw : wasExpected s.expect .ArrayBegin p = .ok ()) :
    (∃ l ts1 s1, ppNext s ((.ArrayBegin, p) :: ts) =
      .yield (.ok (.Array l, p)) ts1 s1) ∨
    (∃ q found exp2 ts1, ppNext s ((.ArrayBegin, p) :: ts) =
      .yield (.error (.UnexpectedToken q found exp2)) ts1 s) ∨
    ppNext s ((.ArrayBegin, p) :: ts) =
      .yield (.error (.UnexpectedEnd p)) [] s := by
  unfold ppNext
  simp only [hw]
  by_cases hcrib : cribIfNextIs ts .ArrayEnd = true
  · rw [hcrib]
    simp only [if_true]
    rcases nextShallBe_shape ts .ArrayEnd p with ⟨ts2, hns⟩ | ⟨tk2, ts2, hns⟩ | hns
    · rw [hns]
      simp only
      rcases hse : setExpectAfterMemberValue ts2 s with ⟨ts3, s3⟩
      exact Or.inl ⟨[], ts3, _, rfl⟩
    · rw [hns]
      exact Or.inr (Or.inl ⟨p, .JLToken tk2, .JLToken .ArrayEnd, ts2, rfl⟩)
    · rw [hns]
      exact Or.inr (Or.inr rfl)
  · have hcrib2 : cribIfNextIs ts .ArrayEnd = false := by
      simpa using hcrib
    rw [hcrib2]
    simp only [Bool.false_eq_true, if_false]
    rcases arrayElems_shape s.expect ts.length ts [] le_rfl with
      ⟨l, rest, hE⟩ | ⟨q, tk, rest, -, hE⟩
    · rw [hE]
      simp only
      rcases nextShallBe_shape rest .ArrayEnd p with
        ⟨ts2, hns⟩ | ⟨tk2, ts2, hns⟩ | hns
      · rw [hns]
        simp only
        rcases hse : setExpectAfterMemberValue ts2 s with ⟨ts3, s3⟩
        exact Or.inl ⟨l, ts3, _, rfl⟩
      · rw [hns]
        exact Or.inr (Or.inl ⟨p, .JLToken tk2, .JLToken .ArrayEnd, ts2, rfl⟩)
      · rw [hns]
        exact Or.inr (Or.inr rfl)
    · rw [hE]
      exact Or.inr (Or.inl ⟨q, .JLToken tk, .JPExpect s.expect, rest, rfl⟩)

/-!  The claims. -/

/-- Claim C1: for every well-formed JSON object text (a rendered document of
the model), `parse` succeeds with a tree whose members appear in source
order, whose member count equals the number of top-level keys, and in which
duplicate member names are kept as separate members in order of appearance. -/
theorem claim1_wellformed_roundtrip (o : DocMembers)
    (hwf : membersWFb o = true) :
    parse (renderDoc o) = .ok (.mk (membersTree o)) ∧
    (membersTree o).map JMember.name = docNames o ∧
    (membersTree o).length = docCount o := by
  refine ⟨?_, membersTree_names o, membersTree_length o⟩
  have h := parse_render_ok o [] hwf
  simpa [renderDoc] using h

/-- Witness for C1 at a concrete document with a duplicate member name:
both members named a survive, in order. -/
theorem claim1_witness :
    membersWFb docAA = true ∧
    parse (renderDoc docAA) = .ok (.mk (membersTree docAA)) ∧
    (membersTree docAA).map JMember.name = [['a'], ['a']] ∧
    (membersTree docAA).length = 2 := by
  have h := claim1_wellformed_roundtrip docAA (by decide)
  exact ⟨by decide, h.1, h.2.1.trans (by decide), h.2.2.trans (by decide)⟩

/-- Claim C2: refuted (code bug).  On the truncated input consisting of a
single opening brace the parser does not return a `ParseError`: the first
validated item consumes the only token, and `parse_object` then calls
`.next().unwrap()` on the exhausted stream, which panics. -/
theorem claim2_truncated_input_panics :
    lexTokens ['\x7b'] = [(.ObjectBegin, 1)] ∧
    parse ['\x7b'] = .panicked := ⟨rfl, rfl⟩

/-- Claim C3: refuted (code bug).  For the input consisting of a single
opening bracket, the validator's sequence is exactly one `UnexpectedToken`
error, yet `parse` binds that first item to a discarded `_result` and then
panics in `parse_object` on the exhausted stream instead of returning the
error. -/
theorem claim3_first_error_discarded :
    ppTokens ("[".toList) =
      [.error (.UnexpectedToken 1 (.JLToken .ArrayBegin)
        (.JPExpect [.ObjectBegin]))] ∧
    parse ("[".toList) = .panicked := ⟨rfl, rfl⟩

/-- Claim C4 (corrected): lexed in isolation, the texts ".7", "15." and "10"
produce no tokens at all — `seek_until` aborts any scan that starts at source
index 0 — so the claimed number tokens appear only when the number does not
start the text; inside "{.7 10 15.}" they lex as NumberFloat(0.7) at 2,
NumberInteger(10) at 5 and NumberFloat(15.0) at 8. -/
theorem claim4_isolated_numbers :
    lexTokens (".7".toList) = [] ∧
    lexTokens ("15.".toList) = [] ∧
    lexTokens ("10".toList) = [] ∧
    lexTokens ("{.7 10 15.}".toList) =
      [(.ObjectBegin, 1), (.NumberFloat (floatVal [] ['7']), 2),
       (.Whitespace, 4), (.NumberInteger 10, 5), (.Whitespace, 7),
       (.NumberFloat (floatVal ['1', '5'] []), 8), (.ObjectEnd, 11)] ∧
    floatVal [] ['7'] = (7 : ℚ) / 10 ∧
    floatVal ['1', '5'] [] = (15 : ℚ) := by
  refine ⟨rfl, rfl, rfl, rfl, ?_, ?_⟩
  · unfold floatVal
    rw [show digitsToNat [] = 0 from rfl, show digitsToNat ['7'] = 7 from rfl,
      show (['7'] : List Char).length = 1 from rfl]
    norm_num
  · unfold floatVal
    rw [show digitsToNat ['1', '5'] = 15 from rfl,
      show digitsToNat [] = 0 from rfl,
      show ([] : List Char).length = 0 from rfl]
    norm_num

/-- Counterexample to C4 as stated: none of the three isolated texts lexes
to the claimed single number token at position 1. -/
theorem claim4_counterexample :
    lexTokens (".7".toList) ≠ [(.NumberFloat ((7 : ℚ) / 10), 1)] ∧
    lexTokens ("15.".toList) ≠ [(.NumberFloat (15 : ℚ), 1)] ∧
    lexTokens ("10".toList) ≠ [(.NumberInteger 10, 1)] :=
  ⟨by decide, by decide, by decide⟩

/-- Claim C5 (corrected): an alphabetic span the lexer cannot classify is
emitted as an UnknownToken carrying the raw text, but the grammar layer
reports it as an `UnexpectedToken` error (the expectation check rejects an
unknown token before the arm that would build `JParseError::UnknownToken`
can run); moreover a non-alphabetic unclassifiable character such as a stray
minus sign silently ends the token stream instead of becoming an
UnknownToken. -/
theorem claim5_unknown_handling :
    lexTokens ("{tru}".toList) =
      [(.ObjectBegin, 1), (.UnknownToken ['t', 'r', 'u'], 2), (.ObjectEnd, 5)] ∧
    (∀ (s : PPState) (w : List Char) (q : Nat) (ts : List (JLexerToken × Nat)),
      ppNext s ((.UnknownToken w, q) :: ts) =
        .yield (.error (.UnexpectedToken q (.JLToken (.UnknownToken w))
          (.JPExpect s.expect))) ts s) :=
  ⟨by decide, fun s w q ts => ppNext_unknownToken s w q ts⟩

/-- Counterexample to C5 as stated: lexing "{-}" stops silently at the stray
minus sign (no UnknownToken is produced for it), and an UnknownToken
surfaces from the validator as `UnexpectedToken`, not as
`JParseError::UnknownToken`. -/
theorem claim5_counterexample :
    lexTokens ("{-}".toList) = [(.ObjectBegin, 1)] ∧
    ppTokens ("{tru}".toList) =
      [.ok (.ObjectBegin, 1),
       .error (.UnexpectedToken 2 (.JLToken (.UnknownToken ['t', 'r', 'u']))
         (.JPExpect [.MemberName, .ObjectEnd])),
       .ok (.ObjectEnd, 5)] :=
  ⟨by decide, by decide⟩

/-- Claim C6: on any input that produces no lexer tokens at all — in
particular the empty text — `parse` fails with `NoBeginningObject` at
position 1. -/
theorem claim6_empty_input (src : List Char) (h : lexTokens src = []) :
    parse src = .failed (.NoBeginningObject 1) := by
  have hf : filteredTokens src = [] := by simp [filteredTokens, h]
  simp [parse, hf, ppNext]

/-- Witness for C6 at the empty input. -/
theorem claim6_witness :
    lexTokens ("".toList) = [] ∧
    parse ("".toList) = .failed (.NoBeginningObject 1) :=
  ⟨rfl, claim6_empty_input ("".toList) rfl⟩

/-- Claim C7: when the validator handles an object-end token with the
open-object counter at 0 it yields `UnclosedObject` at that token's
position (counter unchanged); with a positive counter it yields ObjectEnd,
decrements the counter, and sets the next expectation by lookahead —
`[MemberName]` if the next token is a value separator (consuming it),
otherwise `[ObjectEnd]`. -/
theorem claim7_object_end (s : PPState) (p : Nat)
    (ts : List (JLexerToken × Nat))
    (hmem : JPartialExpect.ObjectEnd ∈ s.expect) :
    (s.objectCnt = 0 →
      ppNext s ((.ObjectEnd, p) :: ts) =
        .yield (.error (.UnclosedObject p)) ts
          { s with count := s.count + 1 }) ∧
    (0 < s.objectCnt →
      ppNext s ((.ObjectEnd, p) :: ts) =
        (if cribIfNextIs ts .ValueSeparator then
          .yield (.ok (.ObjectEnd, p)) ts.tail
            ⟨[.MemberName], s.objectCnt - 1, s.count + 1⟩
        else
          .yield (.ok (.ObjectEnd, p)) ts
            ⟨[.ObjectEnd], s.objectCnt - 1, s.count + 1⟩)) := by
  constructor
  · intro hz
    have hany : s.expect.any (fun e => expectMatches e .ObjectEnd) = true :=
      List.any_eq_true.mpr ⟨.ObjectEnd, hmem, rfl⟩
    obtain ⟨ex, oc, ct⟩ := s
    simp only at hany hz
    subst hz
    simp [ppNext, wasExpected, hany]
  · intro hpos
    exact ppNext_objectEnd hmem hpos

/-- Witness for C7: a closing brace at depth 0 yields UnclosedObject at its
position; one at depth 1 yields ObjectEnd with the counter decremented and
expectation `[ObjectEnd]`. -/
theorem claim7_witness :
    ppNext ⟨[JPartialExpect.ObjectEnd], 0, 2⟩ [(.ObjectEnd, 3)] =
      .yield (.error (.UnclosedObject 3)) [] ⟨[JPartialExpect.ObjectEnd], 0, 3⟩ ∧
    ppNext ⟨[JPartialExpect.MemberName, JPartialExpect.ObjectEnd], 1, 1⟩
        [(.ObjectEnd, 2)] =
      .yield (.ok (.ObjectEnd, 2)) [] ⟨[JPartialExpect.ObjectEnd], 0, 2⟩ := by
  constructor
  · exact (claim7_object_end ⟨[.ObjectEnd], 0, 2⟩ 3 [] (by simp)).1 rfl
  · have h := (claim7_object_end ⟨[.MemberName, .ObjectEnd], 1, 1⟩ 2 []
      (by simp)).2 (by decide)
    simpa [cribIfNextIs] using h

/-- Claim C8: in the validator's array handling, a token that is not a
scalar value token (string content, integer, float, true, false, null) —
in particular a nested array-begin or object-begin — makes the element loop
fail with `UnexpectedToken` at that element's position, while every scalar
token is accepted with its value; and the array arm as a whole either emits
one Array(list) partial token or fails with `UnexpectedToken`, or with
`UnexpectedEnd` when the input ends before the closing bracket. -/
theorem claim8_array_scalars (s : PPState) (p : Nat)
    (ts : List (JLexerToken × Nat))
    (hmem : JPartialExpect.MemberValue ∈ s.expect) :
    (∀ (tk : JLexerToken) (q : Nat) (rest : List (JLexerToken × Nat))
      (acc : List JPValue), scalarOfToken tk = none →
      arrayElems s.expect ((tk, q) :: rest) acc =
        (.error (.UnexpectedToken q (.JLToken tk) (.JPExpect s.expect)), rest)) ∧
    (∀ (e : DocScalar), scalarOfToken (scalarToken e) = some (scalarPValue e)) ∧
    ((∃ l ts1 s1, ppNext s ((.ArrayBegin, p) :: ts) =
        .yield (.ok (.Array l, p)) ts1 s1) ∨
     (∃ q found exp2 ts1, ppNext s ((.ArrayBegin, p) :: ts) =
        .yield (.error (.UnexpectedToken q found exp2)) ts1 s) ∨
     ppNext s ((.ArrayBegin, p) :: ts) =
        .yield (.error (.UnexpectedEnd p)) [] s) := by
  refine ⟨?_, scalarOfToken_scalarToken, ppNext_arrayBegin_shape s p ts
    (wasExpected_ok_of_mem .MemberValue hmem rfl)⟩
  intro tk q rest acc hsc
  unfold arrayElems
  rw [hsc]

/-- Witness for C8: a nested object-begin as array element is rejected with
an UnexpectedToken at its own position, and the rest of the stream is left
in place. -/
theorem claim8_witness :
    arrayElems [JPartialExpect.MemberValue, JPartialExpect.ObjectBegin]
      [(.ObjectBegin, 8), (.TrueToken, 9)] [] =
      (.error (.UnexpectedToken 8 (.JLToken .ObjectBegin)
        (.JPExpect [JPartialExpect.MemberValue, JPartialExpect.ObjectBegin])),
       [(.TrueToken, 9)]) :=
  (claim8_array_scalars ⟨[.MemberValue, .ObjectBegin], 1, 3⟩ 5 [] (by simp)).1
    .ObjectBegin 8 [(.TrueToken, 9)] [] rfl

/-- Claim C9: on the trailing-comma input, the validated sequence ends with
an UnexpectedToken error at position 9 (the closing brace), whose found
token is the object-end token and whose expected set is `[MemberName]`. -/
theorem claim9_trailing_comma :
    ppTokens ['\x7b', '\x22', 'a', '\x22', ':', ' ', '1', ',', '\x7d'] =
      [.ok (.ObjectBegin, 1),
       .ok (.MemberName ['a'], 3),
       .ok (.MemberValue (.Integer 1), 7),
       .error (.UnexpectedToken 9 (.JLToken .ObjectEnd)
         (.JPExpect [.MemberName]))] := by
  decide

/-- Claim C10: a well-formed top-level object followed by arbitrary trailing
characters parses to the tree of the leading object alone; the trailing
characters never cause an error. -/
theorem claim10_trailing_ignored (o : DocMembers) (t : List Char)
    (hwf : membersWFb o = true) :
    parse (renderDoc o ++ t) = .ok (.mk (membersTree o)) := by
  have h := parse_render_ok o t hwf
  simpa [renderDoc] using h

/-- Witness for C10 on the inputs of the claim. -/
theorem claim10_witness :
    parse ("{}{}".toList) = .ok (.mk []) ∧
    parse ("{} xyz".toList) = .ok (.mk []) :=
  ⟨claim10_trailing_ignored .nil ("{}".toList) rfl,
   claim10_trailing_ignored .nil (" xyz".toList) rfl⟩

end CCJparse
